import Mathlib

/-!
# seytan: 128-bit and 256-bit string hashes

A shallow embedding of `seytan256.c` and `seytan128.c`.

* `uint64_t` and `__uint128_t` values are natural numbers; every C operation
  that can leave the range is followed by an explicit reduction (`u64`, `u128`).
* A `uint64_t[4]` array is a `U256`: four limbs, index 0 least significant.
  The `for` loops of the C code are folds over the list of their indices.
* The `while` loop of `mod_256` takes a fuel argument and answers `none`
  when the fuel runs out.
-/

namespace Seytan

/-! ## Machine integers -/

/-- Truncation to `uint64_t`. -/
def u64 (n : Nat) : Nat := n % 2 ^ 64

/-- Truncation to `__uint128_t`. -/
def u128 (n : Nat) : Nat := n % 2 ^ 128

/-- Truncation to `uint8_t`. -/
def u8 (n : Nat) : Nat := n % 2 ^ 8

/-- Wrapping subtraction of `__uint128_t`. -/
def sub128 (a b : Nat) : Nat := (a + (2 ^ 128 - b % 2 ^ 128)) % 2 ^ 128

/-! ## seytan256.c -/

/-- A `uint64_t[4]` array. -/
structure U256 where
  l0 : Nat
  l1 : Nat
  l2 : Nat
  l3 : Nat
deriving DecidableEq, Repr

namespace U256

/-- Array read `x[i]`. -/
def get (x : U256) (i : Nat) : Nat :=
  match i with
  | 0 => x.l0
  | 1 => x.l1
  | 2 => x.l2
  | _ => x.l3

/-- Array write `x[i] = v`. -/
def set (x : U256) (i : Nat) (v : Nat) : U256 :=
  match i with
  | 0 => { x with l0 := v }
  | 1 => { x with l1 := v }
  | 2 => { x with l2 := v }
  | 3 => { x with l3 := v }
  | _ => x

/-- Every limb fits in a `uint64_t`. -/
def WF (x : U256) : Prop :=
  x.l0 < 2 ^ 64 ∧ x.l1 < 2 ^ 64 ∧ x.l2 < 2 ^ 64 ∧ x.l3 < 2 ^ 64

instance (x : U256) : Decidable x.WF := by
  unfold WF; infer_instance

/-- The 256-bit unsigned integer an array denotes. -/
def val (x : U256) : Nat :=
  x.l0 + x.l1 * 2 ^ 64 + x.l2 * 2 ^ 128 + x.l3 * 2 ^ 192

/-- An array initialised with `{0}`. -/
def zero : U256 := ⟨0, 0, 0, 0⟩

end U256

/-- Constant `K`. -/
def K : U256 :=
  ⟨0x7f4a7c159e3779b9, 0x7f4a7c159e3779b9, 0x7f4a7c159e3779b9, 0x7f4a7c159e3779b9⟩

/-- Constant `R`. -/
def R : U256 :=
  ⟨0x5cedc835f39cc060, 0x5cedc835f39cc060, 0x5cedc835f39cc060, 0x5cedc835f39cc060⟩

/-- Constant `P`, the modulus. -/
def P : U256 :=
  ⟨0xfffffc2fffffffff, 0xfffffffffffffffe, 0xffffffffffffffff, 0xffffffffffffffff⟩

/-- One iteration of the loop of `add_256`: the state is `(r, c)`. -/
def add_256_step (a : U256) (st : U256 × Nat) (i : Nat) : U256 × Nat :=
  let s := u128 (u128 (st.1.get i + a.get i) + st.2)
  (st.1.set i (u64 s), s >>> 64)

/-- Function `add_256`: `r += a`, limb by limb with carry. -/
def add_256 (r a : U256) : U256 :=
  ((List.range 4).foldl (add_256_step a) (r, 0)).1

/-- The loop of `cmp_256` with `n` indices left: it looks at index `n - 1`
first and goes down to index 0; `return 0` when none is left. -/
def cmp_256_from (a b : U256) : Nat → Int
  | 0 => 0
  | i + 1 =>
    if a.get i < b.get i then -1
    else if a.get i > b.get i then 1
    else cmp_256_from a b i

/-- Function `cmp_256`: the loop runs `i = 3, 2, 1, 0`. -/
def cmp_256 (a b : U256) : Int := cmp_256_from a b 4

/-- One iteration of the loop of `sub_256`: the state is `(r, c)`. -/
def sub_256_step (m : U256) (st : U256 × Nat) (i : Nat) : U256 × Nat :=
  let diff := sub128 (sub128 (st.1.get i) (m.get i)) st.2
  (st.1.set i (u64 diff), (diff >>> 64) &&& 1)

/-- Function `sub_256`: `r -= m`, limb by limb with borrow. -/
def sub_256 (r m : U256) : U256 :=
  ((List.range 4).foldl (sub_256_step m) (r, 0)).1

/-- Function `mod_256`: `while (cmp_256(x,P) >= 0) sub_256(x,P);`.
Each test of the loop condition uses one unit of fuel. -/
def mod_256 : Nat → U256 → Option U256
  | 0, _ => none
  | fuel + 1, x =>
    if cmp_256 x P ≥ 0 then mod_256 fuel (sub_256 x P) else some x

/-- One iteration of the loop of `mul_256_64`: the state is `(r, c)`. -/
def mul_256_64_step (a : U256) (b : Nat) (st : U256 × Nat) (i : Nat) : U256 × Nat :=
  let m := u128 (u128 (a.get i * b) + st.2)
  (st.1.set i (u64 m), m >>> 64)

/-- The state `(r, c)` of `mul_256_64` after its first `k` iterations. -/
def mul_256_64_iter (r a : U256) (b : Nat) (k : Nat) : U256 × Nat :=
  (List.range k).foldl (mul_256_64_step a b) (r, 0)

/-- Function `mul_256_64`: `r = a * b` for a 64-bit scalar `b`. -/
def mul_256_64 (r a : U256) (b : Nat) : U256 :=
  (mul_256_64_iter r a b 4).1

/-- The inner loop of `mul_256_256`: `for (k=3;k>0;k--) tmp[k]=tmp[k-1]; tmp[0]=0;`. -/
def shift_limb (tmp : U256) : U256 :=
  ([3, 2, 1].foldl (fun t k => t.set k (t.get (k - 1))) tmp).set 0 0

/-- One iteration of the outer loop of `mul_256_256`, on the accumulator `res`. -/
def mul_256_256_step (a b : U256) (res : U256) (i : Nat) : U256 :=
  let tmp := U256.zero
  let tmp := mul_256_64 tmp a (b.get i)
  let tmp := (List.range i).foldl (fun t _ => shift_limb t) tmp
  add_256 res tmp

/-- Function `mul_256_256`: the value copied into `r`. -/
def mul_256_256 (a b : U256) : U256 :=
  (List.range 4).foldl (mul_256_256_step a b) U256.zero

/-- Function `xor_256`: `r[i] ^= x[i]`. -/
def xor_256 (r x : U256) : U256 :=
  (List.range 4).foldl (fun r i => r.set i (r.get i ^^^ x.get i)) r

/-- Function `strlen`: the number of bytes before the first zero byte; the end
of the list stands for the terminator. -/
def strlen : List Nat → Nat
  | [] => 0
  | b :: rest => if b % 256 = 0 then 0 else strlen rest + 1

/-- The body of the loop of `main` in `seytan256.c`, at index `i`. -/
def main_256_step (fuel : Nat) (s : List Nat) (sum : U256) (i : Nat) : Option U256 := do
  let c := u64 (u64 (s.getD i 0 % 256) * u64 (i + 1))
  let tmp1 := mul_256_64 U256.zero K c
  let tmp1 ← mod_256 fuel tmp1
  let term := tmp1
  let term := xor_256 term R
  let sum := add_256 sum term
  mod_256 fuel sum

/-- The loop of `main` in `seytan256.c` followed by the final `mod_256`: the
array handed to `print_hex_256`. Every call of `mod_256` gets `fuel`. -/
def main_256 (fuel : Nat) (s : List Nat) : Option U256 := do
  let sum ← (List.range (strlen s)).foldlM (main_256_step fuel s) U256.zero
  mod_256 fuel sum

/-- Function `mod_256` again, with a counter of the calls of `sub_256` next to
the value left in `x`. -/
def mod_256_count : Nat → U256 → Option (U256 × Nat)
  | 0, _ => none
  | fuel + 1, x =>
    if cmp_256 x P ≥ 0 then
      (mod_256_count fuel (sub_256 x P)).map (fun st => (st.1, st.2 + 1))
    else some (x, 0)

/-- The C library's `printf` with the format `%016lx` and a 64-bit argument:
the lowercase hexadecimal digits of the argument, padded on the left with `0`
up to 16 characters. -/
def fmt_016lx (v : Nat) : List Char :=
  let ds := Nat.toDigits 16 (u64 v)
  List.replicate (16 - ds.length) '0' ++ ds

/-- Function `print_hex_256`: the text written, limb 3 first, then a newline. -/
def print_hex_256 (x : U256) : List Char :=
  [3, 2, 1, 0].foldl (fun out i => out ++ fmt_016lx (x.get i)) [] ++ [Char.ofNat 10]

/-- The text `main` of `seytan256.c` writes for the argument `s`. -/
def main_256_output (fuel : Nat) (s : List Nat) : Option (List Char) :=
  (main_256 fuel s).map print_hex_256

/-! ## seytan128.c -/

/-- The `while (*s)` loop of `string_to_uint128`: the state is `(x, length)`,
`base` is 257. The loop ends at the first zero byte; the end of the list
stands for the terminator. -/
def string_to_uint128_loop : List Nat → Nat → Nat → Nat × Nat
  | [], x, length => (x, length)
  | b :: rest, x, length =>
    if b % 256 = 0 then (x, length)
    else string_to_uint128_loop rest (u128 (u128 (x * 257) + b % 256)) (u64 (length + 1))

/-- Function `string_to_uint128`. -/
def string_to_uint128 (s : List Nat) : Nat :=
  let st := string_to_uint128_loop s 0 0
  st.1 ^^^ u128 (st.2 <<< 64) ^^^ st.2

/-- Function `rotl128`: `(x << r) | (x >> (128 - r))` on `__uint128_t`. -/
def rotl128 (x : Nat) (r : Nat) : Nat :=
  u128 (x <<< r) ||| (x >>> (128 - r))

/-- Constant `K1` of `hash_function_128`. -/
def K1 : Nat := u128 (0x9e3779b97f4a7c15 <<< 64) ||| 0x2b5e572ad19ac784

/-- Constant `K2` of `hash_function_128`. -/
def K2 : Nat := u128 (0xd1b54a32d192ed03 <<< 64) ||| 0x8cb92ba72f3d8dd7

/-- Constant `K3` of `hash_function_128`. -/
def K3 : Nat := u128 (0xf1bbcdc8ac6f94fd <<< 64) ||| 0x4c8e0b3b5e606d65

/-- Function `hash_function_128`. -/
def hash_function_128 (x : Nat) : Nat :=
  let x := u128 (x * K1)
  let x := rotl128 x 13
  let x := u128 (x * K2)
  let high := x >>> 64
  let low := x &&& 0xFFFFFFFFFFFFFFFF
  let x := (high ^^^ low) ||| u128 (low <<< 64)
  let x := rotl128 x 29
  let x := u128 (x * K3)
  let x := x ^^^ (x >>> 37)
  let x := x ^^^ (x >>> 67)
  let x := u128 (x * K2)
  let x := x ^^^ (x >>> 41)
  x

/-- Round 2 of `hash_function_128`: `high = x >> 64`, `low = x & 0xFFFFFFFFFFFFFFFF`,
`x = (high ^ low) | (low << 64)`. -/
def hash_round2 (x : Nat) : Nat :=
  let high := x >>> 64
  let low := x &&& 0xFFFFFFFFFFFFFFFF
  (high ^^^ low) ||| u128 (low <<< 64)

/-- The statements of `hash_function_128` that follow `x *= K1`. -/
def hash_after_K1 (x : Nat) : Nat :=
  let x := rotl128 x 13
  let x := u128 (x * K2)
  let x := hash_round2 x
  let x := rotl128 x 29
  let x := u128 (x * K3)
  let x := x ^^^ (x >>> 37)
  let x := x ^^^ (x >>> 67)
  let x := u128 (x * K2)
  let x := x ^^^ (x >>> 41)
  x

/-- The loop of `print_uint128_hex` with `i + 1` cells left to fill: it writes
`buffer[i]` and goes down to `buffer[0]`. -/
def print_uint128_hex_loop : Nat → List Char → Nat → List Char
  | 0, buffer, _ => buffer
  | i + 1, buffer, n =>
    let digit := u8 (n &&& 0xF)
    let buffer :=
      if digit < 10 then buffer.set i (Char.ofNat (u8 ('0'.toNat + digit)))
      else buffer.set i (Char.ofNat (u8 ('a'.toNat + (digit - 10))))
    print_uint128_hex_loop i buffer (n >>> 4)

/-- A C string read from a buffer: the characters before the first NUL. -/
def c_string (buffer : List Char) : List Char :=
  buffer.takeWhile (fun c => c != Char.ofNat 0)

/-- Function `print_uint128_hex`: the text written by `printf("%s", buffer)`.
The 33 cells of the buffer start as NUL; the loop overwrites the first 32. -/
def print_uint128_hex (n : Nat) : List Char :=
  let buffer := List.replicate 33 (Char.ofNat 0)
  let buffer := buffer.set 32 (Char.ofNat 0)
  let buffer := print_uint128_hex_loop 32 buffer n
  c_string buffer

/-! ## The specification's descriptions, for comparison with the code -/

/-- The specification's `fold_string`: the polynomial
`sum of b_i * 257^(n-1-i)` reduced modulo `2^128`, then XOR with `n * 2^64`
and with `n`. -/
def fold_string_spec (s : List Nat) : Nat :=
  let n := s.length
  (((List.range n).map (fun i => s.getD i 0 * 257 ^ (n - 1 - i))).sum % 2 ^ 128)
    ^^^ (n * 2 ^ 64) ^^^ n

/-- Circular left rotation of a 128-bit value by `r` positions: the low
`128 - r` bits move up by `r`, the high `r` bits move to the bottom. -/
def rotate_left_spec (x r : Nat) : Nat :=
  (x % 2 ^ (128 - r)) * 2 ^ r + x / 2 ^ (128 - r)

/-- The ten stages of the specification's `mix`, in order, as arithmetic
modulo `2^128`. -/
def mix_stages : List (Nat → Nat) :=
  [ fun x => (x * 0x9e3779b97f4a7c152b5e572ad19ac784) % 2 ^ 128,
    fun x => rotate_left_spec x 13,
    fun x => (x * 0xd1b54a32d192ed038cb92ba72f3d8dd7) % 2 ^ 128,
    fun x => (x / 2 ^ 64 ^^^ x % 2 ^ 64) ||| ((x % 2 ^ 64) * 2 ^ 64) % 2 ^ 128,
    fun x => rotate_left_spec x 29,
    fun x => (x * 0xf1bbcdc8ac6f94fd4c8e0b3b5e606d65) % 2 ^ 128,
    fun x => x ^^^ x / 2 ^ 37,
    fun x => x ^^^ x / 2 ^ 67,
    fun x => (x * 0xd1b54a32d192ed038cb92ba72f3d8dd7) % 2 ^ 128,
    fun x => x ^^^ x / 2 ^ 41 ]

/-- The specification's `mix`: the stages applied one after the other. -/
def mix_spec (x : Nat) : Nat :=
  mix_stages.foldl (fun acc stage => stage acc) x

/-- The lowercase hexadecimal digits, in order. -/
def lower_hex : List Char := "0123456789abcdef".toList

/-- The lowercase hexadecimal digit of a value below 16. -/
def hex_digit_spec (d : Nat) : Char := lower_hex.getD d '0'

/-- The value of a hexadecimal digit: its place among the lowercase digits. -/
def hex_value (c : Char) : Nat := lower_hex.indexOf c

/-- A list of characters read as a base-16 numeral, most significant first. -/
def read_hex (l : List Char) : Nat :=
  l.foldl (fun acc c => acc * 16 + hex_value c) 0

/-- The `w` hexadecimal digits of `n`, most significant nibble first:
character `i` is the digit of `(n >> (4 * (w - 1 - i))) & 0xF`. -/
def hex_string_spec (w n : Nat) : List Char :=
  (List.range w).map (fun i => hex_digit_spec ((n >>> (4 * (w - 1 - i))) &&& 0xF))

/-- The map that undoes round 2 of `hash_function_128`: the high half of the
result is `low`, and its low half XOR `low` is `high`. -/
def hash_round2_inverse (z : Nat) : Nat :=
  let low := z / 2 ^ 64
  let high := (z % 2 ^ 64) ^^^ low
  high * 2 ^ 64 + low

/-- A map is lossless on the 128-bit values: it sends them to 128-bit values
and no two of them to the same result. -/
def Lossless128 (f : Nat → Nat) : Prop :=
  (∀ x, x < 2 ^ 128 → f x < 2 ^ 128) ∧
    ∀ x y, x < 2 ^ 128 → y < 2 ^ 128 → f x = f y → x = y

/-! ## Limb arithmetic: helper lemmas -/

theorem u64_lt (n : Nat) : u64 n < 2 ^ 64 := Nat.mod_lt _ (by norm_num)

theorem add_256_eq (r0 r1 r2 r3 a0 a1 a2 a3 s0 s1 s2 s3 : Nat)
    (h0 : u128 (u128 (r0 + a0) + 0) = s0)
    (h1 : u128 (u128 (r1 + a1) + s0 >>> 64) = s1)
    (h2 : u128 (u128 (r2 + a2) + s1 >>> 64) = s2)
    (h3 : u128 (u128 (r3 + a3) + s2 >>> 64) = s3) :
    add_256 ⟨r0, r1, r2, r3⟩ ⟨a0, a1, a2, a3⟩ = ⟨u64 s0, u64 s1, u64 s2, u64 s3⟩ := by
  subst h0 h1 h2 h3
  rfl

theorem sub_256_eq (r0 r1 r2 r3 a0 a1 a2 a3 s0 s1 s2 s3 : Nat)
    (h0 : sub128 (sub128 r0 a0) 0 = s0)
    (h1 : sub128 (sub128 r1 a1) (s0 >>> 64 &&& 1) = s1)
    (h2 : sub128 (sub128 r2 a2) (s1 >>> 64 &&& 1) = s2)
    (h3 : sub128 (sub128 r3 a3) (s2 >>> 64 &&& 1) = s3) :
    sub_256 ⟨r0, r1, r2, r3⟩ ⟨a0, a1, a2, a3⟩ = ⟨u64 s0, u64 s1, u64 s2, u64 s3⟩ := by
  subst h0 h1 h2 h3
  rfl

theorem add_256_wf (r a : U256) : (add_256 r a).WF := by
  obtain ⟨r0, r1, r2, r3⟩ := r
  obtain ⟨a0, a1, a2, a3⟩ := a
  rw [add_256_eq r0 r1 r2 r3 a0 a1 a2 a3 _ _ _ _ rfl rfl rfl rfl]
  exact ⟨u64_lt _, u64_lt _, u64_lt _, u64_lt _⟩

theorem sub_256_wf (r a : U256) : (sub_256 r a).WF := by
  obtain ⟨r0, r1, r2, r3⟩ := r
  obtain ⟨a0, a1, a2, a3⟩ := a
  rw [sub_256_eq r0 r1 r2 r3 a0 a1 a2 a3 _ _ _ _ rfl rfl rfl rfl]
  exact ⟨u64_lt _, u64_lt _, u64_lt _, u64_lt _⟩

theorem add_limb (x y c : Nat) (hx : x < 2 ^ 64) (hy : y < 2 ^ 64) (hc : c ≤ 1) :
    u64 (u128 (u128 (x + y) + c)) + 2 ^ 64 * (u128 (u128 (x + y) + c) >>> 64) = x + y + c ∧
      u128 (u128 (x + y) + c) >>> 64 ≤ 1 := by
  simp only [u64, u128, Nat.shiftRight_eq_div_pow]
  omega

theorem sub_limb (x y c : Nat) (hx : x < 2 ^ 64) (hy : y < 2 ^ 64) (hc : c ≤ 1) :
    u64 (sub128 (sub128 x y) c) + y + c
        = x + 2 ^ 64 * ((sub128 (sub128 x y) c >>> 64) &&& 1) ∧
      (sub128 (sub128 x y) c >>> 64) &&& 1 ≤ 1 := by
  simp only [u64, sub128, Nat.shiftRight_eq_div_pow, Nat.and_one_is_mod]
  omega

theorem add_256_val (r a : U256) (hr : r.WF) (ha : a.WF) :
    (add_256 r a).val = (r.val + a.val) % 2 ^ 256 := by
  obtain ⟨r0, r1, r2, r3⟩ := r
  obtain ⟨a0, a1, a2, a3⟩ := a
  obtain ⟨hr0, hr1, hr2, hr3⟩ := hr
  obtain ⟨ha0, ha1, ha2, ha3⟩ := ha
  simp only at hr0 hr1 hr2 hr3 ha0 ha1 ha2 ha3
  rw [add_256_eq r0 r1 r2 r3 a0 a1 a2 a3 _ _ _ _ rfl rfl rfl rfl]
  simp only [U256.val]
  obtain ⟨e0, c0⟩ := add_limb r0 a0 0 hr0 ha0 (by omega)
  generalize u128 (u128 (r0 + a0) + 0) = s0 at e0 c0 ⊢
  obtain ⟨e1, c1⟩ := add_limb r1 a1 _ hr1 ha1 c0
  generalize u128 (u128 (r1 + a1) + s0 >>> 64) = s1 at e1 c1 ⊢
  obtain ⟨e2, c2⟩ := add_limb r2 a2 _ hr2 ha2 c1
  generalize u128 (u128 (r2 + a2) + s1 >>> 64) = s2 at e2 c2 ⊢
  obtain ⟨e3, c3⟩ := add_limb r3 a3 _ hr3 ha3 c2
  generalize u128 (u128 (r3 + a3) + s2 >>> 64) = s3 at e3 c3 ⊢
  have b0 := u64_lt s0
  have b1 := u64_lt s1
  have b2 := u64_lt s2
  have b3 := u64_lt s3
  generalize u64 s0 = o0 at *
  generalize u64 s1 = o1 at *
  generalize u64 s2 = o2 at *
  generalize u64 s3 = o3 at *
  generalize s0 >>> 64 = k0 at *
  generalize s1 >>> 64 = k1 at *
  generalize s2 >>> 64 = k2 at *
  generalize s3 >>> 64 = k3 at *
  omega

theorem sub_256_val (r m : U256) (hr : r.WF) (hm : m.WF) :
    (sub_256 r m).val = (r.val + (2 ^ 256 - m.val)) % 2 ^ 256 := by
  obtain ⟨r0, r1, r2, r3⟩ := r
  obtain ⟨a0, a1, a2, a3⟩ := m
  obtain ⟨hr0, hr1, hr2, hr3⟩ := hr
  obtain ⟨ha0, ha1, ha2, ha3⟩ := hm
  simp only at hr0 hr1 hr2 hr3 ha0 ha1 ha2 ha3
  rw [sub_256_eq r0 r1 r2 r3 a0 a1 a2 a3 _ _ _ _ rfl rfl rfl rfl]
  simp only [U256.val]
  obtain ⟨e0, c0⟩ := sub_limb r0 a0 0 hr0 ha0 (by omega)
  generalize sub128 (sub128 r0 a0) 0 = s0 at e0 c0 ⊢
  obtain ⟨e1, c1⟩ := sub_limb r1 a1 _ hr1 ha1 c0
  generalize sub128 (sub128 r1 a1) (s0 >>> 64 &&& 1) = s1 at e1 c1 ⊢
  obtain ⟨e2, c2⟩ := sub_limb r2 a2 _ hr2 ha2 c1
  generalize sub128 (sub128 r2 a2) (s1 >>> 64 &&& 1) = s2 at e2 c2 ⊢
  obtain ⟨e3, c3⟩ := sub_limb r3 a3 _ hr3 ha3 c2
  generalize sub128 (sub128 r3 a3) (s2 >>> 64 &&& 1) = s3 at e3 c3 ⊢
  have b0 := u64_lt s0
  have b1 := u64_lt s1
  have b2 := u64_lt s2
  have b3 := u64_lt s3
  generalize u64 s0 = o0 at *
  generalize u64 s1 = o1 at *
  generalize u64 s2 = o2 at *
  generalize u64 s3 = o3 at *
  generalize s0 >>> 64 &&& 1 = k0 at *
  generalize s1 >>> 64 &&& 1 = k1 at *
  generalize s2 >>> 64 &&& 1 = k2 at *
  generalize s3 >>> 64 &&& 1 = k3 at *
  omega

theorem cmp_256_cases (a b : U256) (ha : a.WF) (hb : b.WF) :
    (cmp_256 a b = -1 ∧ a.val < b.val) ∨ (cmp_256 a b = 0 ∧ a = b) ∨
      (cmp_256 a b = 1 ∧ b.val < a.val) := by
  obtain ⟨a0, a1, a2, a3⟩ := a
  obtain ⟨b0, b1, b2, b3⟩ := b
  simp only [U256.WF] at ha hb
  simp only [cmp_256, cmp_256_from, U256.get, U256.val, U256.mk.injEq]
  split_ifs <;> first | (left; omega) | (right; right; omega) | (right; left; omega)

theorem P_wf : P.WF := by decide

theorem P_val : P.val = 0xfffffffffffffffffffffffffffffffffffffffffffffffefffffc2fffffffff := by
  decide

theorem cmp_256_nonneg_iff (a b : U256) (ha : a.WF) (hb : b.WF) :
    cmp_256 a b ≥ 0 ↔ b.val ≤ a.val := by
  rcases cmp_256_cases a b ha hb with ⟨h, h'⟩ | ⟨h, h'⟩ | ⟨h, h'⟩
  · rw [h]; constructor
    · intro h0; exact absurd h0 (by decide)
    · intro h0; omega
  · rw [h, h']; simp
  · rw [h]; constructor
    · intro _; omega
    · intro _; decide

theorem val_lt (x : U256) (hx : x.WF) : x.val < 2 ^ 256 := by
  obtain ⟨x0, x1, x2, x3⟩ := x
  simp only [U256.WF] at hx
  simp only [U256.val]
  omega

theorem mod_256_two (x : U256) (hx : x.WF) (fuel : Nat) :
    ∃ y, mod_256 (fuel + 2) x = some y ∧ y.WF ∧ y.val = x.val % P.val ∧ y.val < P.val := by
  have hP := P_val
  have hxl := val_lt x hx
  by_cases h : cmp_256 x P ≥ 0
  · have hle := (cmp_256_nonneg_iff x P hx P_wf).1 h
    have hs := sub_256_val x P hx P_wf
    have hw := sub_256_wf x P
    have hlt : (sub_256 x P).val < P.val := by rw [hs]; omega
    have h2 : ¬ cmp_256 (sub_256 x P) P ≥ 0 := by
      rw [cmp_256_nonneg_iff _ _ hw P_wf]; omega
    refine ⟨sub_256 x P, ?_, hw, ?_, hlt⟩
    · rw [mod_256, if_pos h, mod_256, if_neg h2]
    · rw [hs]
      have : x.val % P.val = x.val - P.val := by
        rw [Nat.mod_eq_sub_mod hle, Nat.mod_eq_of_lt (by omega)]
      omega
  · have hlt : x.val < P.val := by
      rw [cmp_256_nonneg_iff x P hx P_wf] at h; omega
    refine ⟨x, ?_, hx, (Nat.mod_eq_of_lt hlt).symm, hlt⟩
    rw [mod_256, if_neg h]

theorem mod_256_enough (x : U256) (hx : x.WF) (fuel : Nat) (hf : 2 ≤ fuel) :
    ∃ y, mod_256 fuel x = some y ∧ y.WF ∧ y.val = x.val % P.val ∧ y.val < P.val := by
  obtain ⟨k, rfl⟩ : ∃ k, fuel = k + 2 := ⟨fuel - 2, by omega⟩
  exact mod_256_two x hx k

/-! ## Multiplication: helper lemmas -/

theorem mul_limb (x b c : Nat) (hx : x < 2 ^ 64) (hb : b < 2 ^ 64) (hc : c < 2 ^ 64) :
    x * b + c ≤ 2 ^ 128 - 1 ∧
    u64 (u128 (u128 (x * b) + c)) + 2 ^ 64 * (u128 (u128 (x * b) + c) >>> 64) = x * b + c ∧
      u128 (u128 (x * b) + c) >>> 64 < 2 ^ 64 := by
  have h : x * b ≤ (2 ^ 64 - 1) * (2 ^ 64 - 1) :=
    Nat.mul_le_mul (by omega) (by omega)
  simp only [u64, u128, Nat.shiftRight_eq_div_pow]
  generalize x * b = p at h ⊢
  omega

theorem mul_256_64_eq (r a : U256) (b s0 s1 s2 s3 : Nat)
    (h0 : u128 (u128 (a.l0 * b) + 0) = s0)
    (h1 : u128 (u128 (a.l1 * b) + s0 >>> 64) = s1)
    (h2 : u128 (u128 (a.l2 * b) + s1 >>> 64) = s2)
    (h3 : u128 (u128 (a.l3 * b) + s2 >>> 64) = s3) :
    mul_256_64_iter r a b 0 = (r, 0) ∧
    mul_256_64_iter r a b 1 = (⟨u64 s0, r.l1, r.l2, r.l3⟩, s0 >>> 64) ∧
    mul_256_64_iter r a b 2 = (⟨u64 s0, u64 s1, r.l2, r.l3⟩, s1 >>> 64) ∧
    mul_256_64_iter r a b 3 = (⟨u64 s0, u64 s1, u64 s2, r.l3⟩, s2 >>> 64) ∧
    mul_256_64_iter r a b 4 = (⟨u64 s0, u64 s1, u64 s2, u64 s3⟩, s3 >>> 64) := by
  subst h0 h1 h2 h3
  exact ⟨rfl, rfl, rfl, rfl, rfl⟩

theorem mul_256_64_wf (r a : U256) (b : Nat) : (mul_256_64 r a b).WF := by
  rw [mul_256_64, (mul_256_64_eq r a b _ _ _ _ rfl rfl rfl rfl).2.2.2.2]
  exact ⟨u64_lt _, u64_lt _, u64_lt _, u64_lt _⟩

theorem mul_256_64_facts (r a : U256) (b : Nat) (ha : a.WF) (hb : b < 2 ^ 64) :
    (mul_256_64 r a b).val = (a.val * b) % 2 ^ 256 ∧
      ∀ i, i < 4 → a.get i * b + (mul_256_64_iter r a b i).2 ≤ 2 ^ 128 - 1 := by
  obtain ⟨e0, e1, e2, e3, e4⟩ := mul_256_64_eq r a b _ _ _ _ rfl rfl rfl rfl
  obtain ⟨a0, a1, a2, a3⟩ := a
  obtain ⟨ha0, ha1, ha2, ha3⟩ := ha
  simp only at ha0 ha1 ha2 ha3 e0 e1 e2 e3 e4
  obtain ⟨m0, f0, c0⟩ := mul_limb a0 b 0 ha0 hb (by norm_num)
  generalize u128 (u128 (a0 * b) + 0) = s0 at e1 e2 e3 e4 f0 c0
  obtain ⟨m1, f1, c1⟩ := mul_limb a1 b _ ha1 hb c0
  generalize u128 (u128 (a1 * b) + s0 >>> 64) = s1 at e2 e3 e4 f1 c1
  obtain ⟨m2, f2, c2⟩ := mul_limb a2 b _ ha2 hb c1
  generalize u128 (u128 (a2 * b) + s1 >>> 64) = s2 at e3 e4 f2 c2
  obtain ⟨m3, f3, c3⟩ := mul_limb a3 b _ ha3 hb c2
  generalize u128 (u128 (a3 * b) + s2 >>> 64) = s3 at e4 f3 c3
  constructor
  · rw [mul_256_64, e4]
    simp only [U256.val]
    have hd : (a0 + a1 * 2 ^ 64 + a2 * 2 ^ 128 + a3 * 2 ^ 192) * b
        = a0 * b + a1 * b * 2 ^ 64 + a2 * b * 2 ^ 128 + a3 * b * 2 ^ 192 := by ring
    rw [hd]
    have b0 := u64_lt s0
    have b1 := u64_lt s1
    have b2 := u64_lt s2
    have b3 := u64_lt s3
    generalize u64 s0 = o0 at *
    generalize u64 s1 = o1 at *
    generalize u64 s2 = o2 at *
    generalize u64 s3 = o3 at *
    generalize s0 >>> 64 = k0 at *
    generalize s1 >>> 64 = k1 at *
    generalize s2 >>> 64 = k2 at *
    generalize s3 >>> 64 = k3 at *
    generalize a0 * b = p0 at *
    generalize a1 * b = p1 at *
    generalize a2 * b = p2 at *
    generalize a3 * b = p3 at *
    omega
  · intro i hi
    have hcases : i = 0 ∨ i = 1 ∨ i = 2 ∨ i = 3 := by omega
    rcases hcases with rfl | rfl | rfl | rfl
    · rw [e0]; exact m0
    · rw [e1]; exact m1
    · rw [e2]; exact m2
    · rw [e3]; exact m3

theorem shift_limb_eq (t0 t1 t2 t3 : Nat) :
    shift_limb ⟨t0, t1, t2, t3⟩ = ⟨0, t0, t1, t2⟩ := rfl

theorem shift_limb_wf (t : U256) (ht : t.WF) : (shift_limb t).WF := by
  obtain ⟨t0, t1, t2, t3⟩ := t
  obtain ⟨h0, h1, h2, h3⟩ := ht
  rw [shift_limb_eq]
  exact ⟨by norm_num, h0, h1, h2⟩

theorem shift_limb_val (t : U256) (ht : t.WF) :
    (shift_limb t).val = (t.val * 2 ^ 64) % 2 ^ 256 := by
  obtain ⟨t0, t1, t2, t3⟩ := t
  obtain ⟨h0, h1, h2, h3⟩ := ht
  simp only at h0 h1 h2 h3
  rw [shift_limb_eq]
  simp only [U256.val]
  omega

theorem shift_limb_iter (t : U256) (ht : t.WF) (i : Nat) :
    ((List.range i).foldl (fun t _ => shift_limb t) t).WF ∧
      ((List.range i).foldl (fun t _ => shift_limb t) t).val
        = (t.val * 2 ^ (64 * i)) % 2 ^ 256 := by
  induction i with
  | zero =>
    refine ⟨ht, ?_⟩
    simp only [List.range_zero, List.foldl_nil, Nat.mul_zero, Nat.pow_zero, Nat.mul_one]
    exact (Nat.mod_eq_of_lt (val_lt t ht)).symm
  | succ n ih =>
    simp only [List.range_succ, List.foldl_append, List.foldl_cons, List.foldl_nil]
    refine ⟨shift_limb_wf _ ih.1, ?_⟩
    rw [shift_limb_val _ ih.1, ih.2, Nat.mod_mul_mod, Nat.mul_assoc, ← Nat.pow_add,
      Nat.mul_add, Nat.mul_one]

theorem mul_256_256_step_facts (a b res : U256) (i : Nat) (ha : a.WF) (hb : b.WF)
    (hres : res.WF) :
    (mul_256_256_step a b res i).WF ∧
      (mul_256_256_step a b res i).val
        = (res.val + ((a.val * b.get i) % 2 ^ 256 * 2 ^ (64 * i)) % 2 ^ 256) % 2 ^ 256 := by
  have hbi : b.get i < 2 ^ 64 := by
    obtain ⟨h0, h1, h2, h3⟩ := hb
    unfold U256.get
    split <;> assumption
  have hm := (mul_256_64_facts U256.zero a (b.get i) ha hbi).1
  have hw := mul_256_64_wf U256.zero a (b.get i)
  obtain ⟨sw, sv⟩ := shift_limb_iter _ hw i
  simp only [mul_256_256_step]
  refine ⟨add_256_wf _ _, ?_⟩
  rw [add_256_val _ _ hres sw, sv, hm]

theorem mul_256_256_val (a b : U256) (ha : a.WF) (hb : b.WF) :
    (mul_256_256 a b).WF ∧ (mul_256_256 a b).val = (a.val * b.val) % 2 ^ 256 := by
  have hz : U256.zero.WF := by decide
  obtain ⟨w0, v0⟩ := mul_256_256_step_facts a b U256.zero 0 ha hb hz
  obtain ⟨w1, v1⟩ := mul_256_256_step_facts a b _ 1 ha hb w0
  obtain ⟨w2, v2⟩ := mul_256_256_step_facts a b _ 2 ha hb w1
  obtain ⟨w3, v3⟩ := mul_256_256_step_facts a b _ 3 ha hb w2
  have hfold : mul_256_256 a b = mul_256_256_step a b (mul_256_256_step a b
      (mul_256_256_step a b (mul_256_256_step a b U256.zero 0) 1) 2) 3 := rfl
  rw [hfold]
  refine ⟨w3, ?_⟩
  rw [v3, v2, v1, v0]
  have hbv : b.val = b.get 0 + b.get 1 * 2 ^ 64 + b.get 2 * 2 ^ 128 + b.get 3 * 2 ^ 192 := rfl
  have hzv : U256.zero.val = 0 := rfl
  rw [hbv, hzv]
  generalize b.get 0 = b0
  generalize b.get 1 = b1
  generalize b.get 2 = b2
  generalize b.get 3 = b3
  generalize a.val = A
  show Nat.ModEq (2 ^ 256) _ _
  rw [← ZMod.eq_iff_modEq_nat]
  push_cast [ZMod.natCast_mod]
  ring

/-! ## The 256-bit pipeline: helper lemmas -/

theorem main_256_step_some (fuel : Nat) (hf : 2 ≤ fuel) (s : List Nat) (sum : U256) (i : Nat) :
    ∃ y, main_256_step fuel s sum i = some y ∧ y.WF ∧ y.val < P.val := by
  obtain ⟨t, ht, -, -, -⟩ := mod_256_enough
    (mul_256_64 U256.zero K (u64 (u64 (s.getD i 0 % 256) * u64 (i + 1))))
    (mul_256_64_wf _ _ _) fuel hf
  obtain ⟨y, hy, hw, -, hlt⟩ := mod_256_enough (add_256 sum (xor_256 t R))
    (add_256_wf _ _) fuel hf
  refine ⟨y, ?_, hw, hlt⟩
  simp only [main_256_step, ht, Option.bind_eq_bind, Option.some_bind, bind_pure_comp]
  exact hy

theorem main_256_loop_some (fuel : Nat) (hf : 2 ≤ fuel) (s : List Nat) (l : List Nat)
    (sum : U256) (hs : sum.WF) :
    ∃ y, l.foldlM (main_256_step fuel s) sum = some y ∧ y.WF := by
  induction l generalizing sum with
  | nil => exact ⟨sum, rfl, hs⟩
  | cons i l ih =>
    obtain ⟨y, hy, hw, -⟩ := main_256_step_some fuel hf s sum i
    obtain ⟨z, hz, hzw⟩ := ih y hw
    refine ⟨z, ?_, hzw⟩
    rw [List.foldlM_cons, hy]
    exact hz

theorem main_256_some (fuel : Nat) (hf : 2 ≤ fuel) (s : List Nat) :
    ∃ y, main_256 fuel s = some y ∧ y.WF ∧ y.val < P.val := by
  obtain ⟨z, hz, hzw⟩ := main_256_loop_some fuel hf s (List.range (strlen s)) U256.zero
    (by decide)
  obtain ⟨y, hy, hw, -, hlt⟩ := mod_256_enough z hzw fuel hf
  refine ⟨y, ?_, hw, hlt⟩
  simp only [main_256, hz, Option.bind_eq_bind, Option.some_bind]
  exact hy

/-! ## seytan128.c: helper lemmas -/

theorem rotl128_eq (x r : Nat) (hx : x < 2 ^ 128) (h1 : 1 ≤ r) (h2 : r ≤ 127) :
    rotl128 x r = rotate_left_spec x r := by
  have hpow : 2 ^ 128 = 2 ^ (128 - r) * 2 ^ r := by
    rw [← Nat.pow_add]; congr 1; omega
  have hlt : x / 2 ^ (128 - r) < 2 ^ r := by
    rw [Nat.div_lt_iff_lt_mul (Nat.pow_pos (by norm_num))]
    rw [Nat.mul_comm, ← hpow]; exact hx
  unfold rotl128 rotate_left_spec u128
  rw [Nat.shiftLeft_eq, Nat.shiftRight_eq_div_pow]
  have e1 : x * 2 ^ r % 2 ^ 128 = (x % 2 ^ (128 - r)) * 2 ^ r := by
    rw [hpow, Nat.mul_mod_mul_right]
  rw [e1, Nat.mul_comm _ (2 ^ r)]
  exact (Nat.mul_add_lt_is_or hlt _).symm

theorem rotate_left_spec_lt (x r : Nat) (hx : x < 2 ^ 128) (h2 : r ≤ 127) :
    rotate_left_spec x r < 2 ^ 128 := by
  have hpow : 2 ^ 128 = 2 ^ (128 - r) * 2 ^ r := by
    rw [← Nat.pow_add]; congr 1; omega
  have hlt : x / 2 ^ (128 - r) < 2 ^ r := by
    rw [Nat.div_lt_iff_lt_mul (Nat.pow_pos (by norm_num))]
    rw [Nat.mul_comm, ← hpow]; exact hx
  have hm : x % 2 ^ (128 - r) < 2 ^ (128 - r) := Nat.mod_lt _ (Nat.pow_pos (by norm_num))
  unfold rotate_left_spec
  rw [hpow]
  calc x % 2 ^ (128 - r) * 2 ^ r + x / 2 ^ (128 - r)
      < x % 2 ^ (128 - r) * 2 ^ r + 2 ^ r := by omega
    _ = (x % 2 ^ (128 - r) + 1) * 2 ^ r := by ring
    _ ≤ 2 ^ (128 - r) * 2 ^ r := Nat.mul_le_mul_right _ hm

theorem rotate_left_spec_inv (x r : Nat) (hx : x < 2 ^ 128) (h2 : r ≤ 127) :
    rotate_left_spec (rotate_left_spec x r) (128 - r) = x := by
  have hpow : 2 ^ 128 = 2 ^ (128 - r) * 2 ^ r := by
    rw [← Nat.pow_add]; congr 1; omega
  have hlt : x / 2 ^ (128 - r) < 2 ^ r := by
    rw [Nat.div_lt_iff_lt_mul (Nat.pow_pos (by norm_num))]
    rw [Nat.mul_comm, ← hpow]; exact hx
  have hr : 128 - (128 - r) = r := by omega
  have hpos : 0 < 2 ^ r := Nat.pow_pos (by norm_num)
  unfold rotate_left_spec
  rw [hr, Nat.mul_comm (x % 2 ^ (128 - r)) (2 ^ r), Nat.mul_add_mod, Nat.mod_eq_of_lt hlt,
    Nat.mul_add_div hpos, Nat.div_eq_of_lt hlt, Nat.add_zero]
  exact Nat.div_add_mod' x _

theorem rotl128_inv (x r : Nat) (hx : x < 2 ^ 128) (h1 : 1 ≤ r) (h2 : r ≤ 127) :
    rotl128 (rotl128 x r) (128 - r) = x := by
  rw [rotl128_eq x r hx h1 h2,
    rotl128_eq _ _ (rotate_left_spec_lt x r hx h2) (by omega) (by omega)]
  exact rotate_left_spec_inv x r hx h2

theorem K1_eq : K1 = 0x9e3779b97f4a7c152b5e572ad19ac784 := by decide

theorem K2_eq : K2 = 0xd1b54a32d192ed038cb92ba72f3d8dd7 := by decide

theorem K3_eq : K3 = 0xf1bbcdc8ac6f94fd4c8e0b3b5e606d65 := by decide

theorem u128_lt (n : Nat) : u128 n < 2 ^ 128 := Nat.mod_lt _ (by norm_num)

theorem land_mask64 (x : Nat) : x &&& 0xFFFFFFFFFFFFFFFF = x % 2 ^ 64 :=
  Nat.and_pow_two_sub_one_eq_mod x 64

theorem hash_function_128_eq_mix (x : Nat) : hash_function_128 x = mix_spec x := by
  have hmix : ∀ y, y < 2 ^ 128 →
      (y >>> 64 ^^^ y &&& 0xFFFFFFFFFFFFFFFF) ||| u128 ((y &&& 0xFFFFFFFFFFFFFFFF) <<< 64)
        < 2 ^ 128 := by
    intro y hy
    refine Nat.or_lt_two_pow ?_ (u128_lt _)
    refine Nat.xor_lt_two_pow ?_ ?_
    · rw [Nat.shiftRight_eq_div_pow]; omega
    · rw [land_mask64]; omega
  simp only [hash_function_128, mix_spec, mix_stages, List.foldl]
  rw [rotl128_eq _ 13 (u128_lt _) (by norm_num) (by norm_num),
    rotl128_eq _ 29 (hmix _ (u128_lt _)) (by norm_num) (by norm_num)]
  simp only [K1_eq, K2_eq, K3_eq, u128, land_mask64, Nat.shiftLeft_eq,
    Nat.shiftRight_eq_div_pow]

theorem poly_cons (b : Nat) (rest : List Nat) :
    ((List.range (rest.length + 1)).map
        (fun i => (b :: rest).getD i 0 * 257 ^ (rest.length + 1 - 1 - i))).sum
      = b * 257 ^ rest.length +
        ((List.range rest.length).map
          (fun i => rest.getD i 0 * 257 ^ (rest.length - 1 - i))).sum := by
  rw [List.range_succ_eq_map, List.map_cons, List.sum_cons, List.map_map]
  congr 1
  congr 1
  apply List.map_congr_left
  intro i hi
  have hi' : i < rest.length := List.mem_range.1 hi
  simp only [Function.comp_apply, List.getD_cons_succ]
  congr 2
  omega

theorem string_to_uint128_loop_eq (s : List Nat) (hs : ∀ b ∈ s, 0 < b ∧ b < 256)
    (x len : Nat) (hx : x < 2 ^ 128) (hl : len < 2 ^ 64) :
    string_to_uint128_loop s x len
      = ((x * 257 ^ s.length +
            ((List.range s.length).map
              (fun i => s.getD i 0 * 257 ^ (s.length - 1 - i))).sum) % 2 ^ 128,
          (len + s.length) % 2 ^ 64) := by
  induction s generalizing x len with
  | nil =>
    simp only [string_to_uint128_loop, List.length_nil, Nat.pow_zero, Nat.mul_one,
      List.range_zero, List.map_nil, List.sum_nil, Nat.add_zero]
    rw [Nat.mod_eq_of_lt hx, Nat.mod_eq_of_lt hl]
  | cons b rest ih =>
    obtain ⟨hb0, hb1⟩ := hs b (List.mem_cons_self _ _)
    have hbm : b % 256 = b := Nat.mod_eq_of_lt hb1
    have hne : ¬ b % 256 = 0 := by omega
    rw [string_to_uint128_loop, if_neg hne, hbm,
      ih (fun c hc => hs c (List.mem_cons_of_mem _ hc)) _ _ (u128_lt _) (u64_lt _)]
    rw [List.length_cons, poly_cons]
    congr 1
    · show Nat.ModEq (2 ^ 128) _ _
      rw [← ZMod.eq_iff_modEq_nat]
      simp only [u128]
      push_cast [ZMod.natCast_mod]
      ring
    · simp only [u64]
      omega

theorem string_to_uint128_eq_spec (s : List Nat) (hs : ∀ b ∈ s, 0 < b ∧ b < 256)
    (hn : s.length < 2 ^ 64) : string_to_uint128 s = fold_string_spec s := by
  simp only [string_to_uint128, fold_string_spec]
  rw [string_to_uint128_loop_eq s hs 0 0 (by norm_num) (by norm_num)]
  simp only [Nat.zero_mul, Nat.zero_add, u128, Nat.shiftLeft_eq]
  rw [Nat.mod_eq_of_lt hn, Nat.mod_eq_of_lt (a := s.length * 2 ^ 64) (by omega)]

/-- Wrapping subtraction on naturals below `M` is the integer difference
modulo `M`. -/
theorem wrap_sub_int (M v a b : Nat) (h : v = (a + (M - b)) % M) (h1 : a < M) (h2 : b < M) :
    (v : Int) = ((a : Int) - (b : Int)) % (M : Int) := by
  have hM : 0 < M := by omega
  by_cases hle : b ≤ a
  · have hv : v = a - b := by
      rw [h, show a + (M - b) = (a - b) + M by omega, Nat.add_mod_right,
        Nat.mod_eq_of_lt (by omega)]
    rw [Int.emod_eq_of_lt (by omega) (by omega)]
    omega
  · have hv : v = a + M - b := by
      rw [h, show a + (M - b) = a + M - b by omega, Nat.mod_eq_of_lt (by omega)]
    rw [← Int.add_emod_self, Int.emod_eq_of_lt (by omega) (by omega)]
    omega

/-! ## The claims -/

/-- C1: for every 4-limb value `x` (each limb a `uint64_t`), `mod_256` returns,
as soon as its loop may test its condition twice, and leaves in `x` the value
`x mod P`, which is strictly less than `P`; `P` is
`0xffffffffffffffff_ffffffffffffffff_fffffffffffffffe_fffffc2fffffffff`. -/
theorem mod_256_correct (x : U256) (hx : x.WF) (fuel : Nat) (hf : 2 ≤ fuel) :
    P.val = 0xfffffffffffffffffffffffffffffffffffffffffffffffefffffc2fffffffff ∧
      ∃ y, mod_256 fuel x = some y ∧ y.val = x.val % P.val ∧ y.val < P.val := by
  obtain ⟨y, hy, -, hv, hlt⟩ := mod_256_enough x hx fuel hf
  exact ⟨P_val, y, hy, hv, hlt⟩

/-- Witness of C1 at the largest 4-limb value, `2^256 - 1`. -/
theorem mod_256_correct_witness :
    (U256.mk (2 ^ 64 - 1) (2 ^ 64 - 1) (2 ^ 64 - 1) (2 ^ 64 - 1)).WF ∧ 2 ≤ 2 ∧
      (P.val = 0xfffffffffffffffffffffffffffffffffffffffffffffffefffffc2fffffffff ∧
        ∃ y, mod_256 2 (U256.mk (2 ^ 64 - 1) (2 ^ 64 - 1) (2 ^ 64 - 1) (2 ^ 64 - 1)) = some y ∧
          y.val = (U256.mk (2 ^ 64 - 1) (2 ^ 64 - 1) (2 ^ 64 - 1) (2 ^ 64 - 1)).val % P.val ∧
          y.val < P.val) :=
  ⟨by decide, by decide, mod_256_correct _ (by decide) 2 (by decide)⟩

/-- C2: for every input string `s`, the 256-bit pipeline (the loop of `main`
followed by the final `mod_256`) returns, and the 4-limb sum it hands to the
formatter is strictly less than `P`. Every byte is read modulo 256 and the
string ends at its first zero byte, so no condition on `s` is needed. -/
theorem main_256_lt_P (s : List Nat) (fuel : Nat) (hf : 2 ≤ fuel) :
    ∃ sum, main_256 fuel s = some sum ∧ sum.WF ∧ sum.val < P.val :=
  main_256_some fuel hf s

/-- Witness of C2 at the input "abc". -/
theorem main_256_lt_P_witness :
    2 ≤ 2 ∧ ∃ sum, main_256 2 [0x61, 0x62, 0x63] = some sum ∧ sum.WF ∧ sum.val < P.val :=
  ⟨by decide, main_256_lt_P [0x61, 0x62, 0x63] 2 (by decide)⟩

/-- C3: for all 4-limb values `r` and `a`, `add_256(r, a)` leaves in `r` the
value `(r + a) mod 2^256`, again as four `uint64_t` limbs: the carry out of
limb 3 is dropped. -/
theorem add_256_correct (r a : U256) (hr : r.WF) (ha : a.WF) :
    (add_256 r a).val = (r.val + a.val) % 2 ^ 256 ∧ (add_256 r a).WF :=
  ⟨add_256_val r a hr ha, add_256_wf r a⟩

/-- Witness of C3 at `P + K`, a sum that overflows limb 3. -/
theorem add_256_correct_witness :
    P.WF ∧ K.WF ∧ 2 ^ 256 ≤ P.val + K.val ∧
      ((add_256 P K).val = (P.val + K.val) % 2 ^ 256 ∧ (add_256 P K).WF) :=
  ⟨by decide, by decide, by decide, add_256_correct P K (by decide) (by decide)⟩

/-- C4: for all 4-limb values `r` and `m`, `sub_256(r, m)` leaves in `r` the
value `(r - m) mod 2^256` (the difference taken over the integers): exactly
`r - m` when `r ≥ m`, and `r - m + 2^256` when `r < m`. -/
theorem sub_256_correct (r m : U256) (hr : r.WF) (hm : m.WF) :
    ((sub_256 r m).val : Int) = ((r.val : Int) - (m.val : Int)) % 2 ^ 256 ∧
      (m.val ≤ r.val → (sub_256 r m).val = r.val - m.val) ∧
      (r.val < m.val → (sub_256 r m).val = r.val + 2 ^ 256 - m.val) := by
  have h := sub_256_val r m hr hm
  have h1 := val_lt r hr
  have h2 := val_lt m hm
  generalize (sub_256 r m).val = v at h ⊢
  generalize r.val = a at h h1 ⊢
  generalize m.val = b at h h2 ⊢
  refine ⟨?_, ?_, ?_⟩
  · have e : (2 : Int) ^ 256 = ((2 ^ 256 : Nat) : Int) := by norm_cast
    rw [e]
    exact wrap_sub_int _ v a b h h1 h2
  · intro hle; omega
  · intro hlt; omega

/-- Witness of C4 at `K - P`, a difference that wraps. -/
theorem sub_256_correct_witness :
    K.WF ∧ P.WF ∧ K.val < P.val ∧
      (((sub_256 K P).val : Int) = ((K.val : Int) - (P.val : Int)) % 2 ^ 256 ∧
        (P.val ≤ K.val → (sub_256 K P).val = K.val - P.val) ∧
        (K.val < P.val → (sub_256 K P).val = K.val + 2 ^ 256 - P.val)) :=
  ⟨by decide, by decide, by decide, sub_256_correct K P (by decide) (by decide)⟩

/-- C5: for every 4-limb value `a` and every 64-bit scalar `b`,
`mul_256_64(r, a, b)` leaves in `r` the value `(a * b) mod 2^256`, and at every
iteration `i` the intermediate `a[i]*b + c`, with `c` the carry left by the
iterations before, is at most `2^128 - 1`. -/
theorem mul_256_64_correct (r a : U256) (b : Nat) (ha : a.WF) (hb : b < 2 ^ 64) :
    (mul_256_64 r a b).val = (a.val * b) % 2 ^ 256 ∧
      ∀ i, i < 4 → a.get i * b + (mul_256_64_iter r a b i).2 ≤ 2 ^ 128 - 1 :=
  mul_256_64_facts r a b ha hb

/-- Witness of C5 at `P * (2^64 - 1)`, with `r` holding `R` beforehand. -/
theorem mul_256_64_correct_witness :
    P.WF ∧ 2 ^ 64 - 1 < 2 ^ 64 ∧
      ((mul_256_64 R P (2 ^ 64 - 1)).val = (P.val * (2 ^ 64 - 1)) % 2 ^ 256 ∧
        ∀ i, i < 4 → P.get i * (2 ^ 64 - 1) + (mul_256_64_iter R P (2 ^ 64 - 1) i).2
          ≤ 2 ^ 128 - 1) :=
  ⟨by decide, by decide, mul_256_64_correct R P (2 ^ 64 - 1) (by decide) (by decide)⟩

/-- C6: for all 4-limb values `a` and `b`, `mul_256_256(r, a, b)` leaves in `r`
the value `(a * b) mod 2^256`, the low 256 bits of the full product. -/
theorem mul_256_256_correct (a b : U256) (ha : a.WF) (hb : b.WF) :
    (mul_256_256 a b).val = (a.val * b.val) % 2 ^ 256 :=
  (mul_256_256_val a b ha hb).2

/-- Witness of C6 at `K * P`. -/
theorem mul_256_256_correct_witness :
    K.WF ∧ P.WF ∧ (mul_256_256 K P).val = (K.val * P.val) % 2 ^ 256 :=
  ⟨by decide, by decide, mul_256_256_correct K P (by decide) (by decide)⟩

/-- C7: for all 4-limb values `a` and `b`, `cmp_256(a, b)` is -1, 0 or 1 and
agrees with the order of the 256-bit integers: -1 iff `a < b`, 0 iff `a = b`
(all four limbs equal, which is the same as equal values), 1 iff `a > b`. -/
theorem cmp_256_correct (a b : U256) (ha : a.WF) (hb : b.WF) :
    (cmp_256 a b = -1 ∨ cmp_256 a b = 0 ∨ cmp_256 a b = 1) ∧
      (cmp_256 a b = -1 ↔ a.val < b.val) ∧
      (cmp_256 a b = 0 ↔ a = b) ∧
      (cmp_256 a b = 0 ↔ a.val = b.val) ∧
      (cmp_256 a b = 1 ↔ b.val < a.val) := by
  rcases cmp_256_cases a b ha hb with ⟨h, h'⟩ | ⟨h, h'⟩ | ⟨h, h'⟩
  · have hne : a ≠ b := fun e => by rw [e] at h'; exact Nat.lt_irrefl _ h'
    rw [h]
    refine ⟨Or.inl rfl, ⟨fun _ => h', fun _ => rfl⟩, ⟨fun e => absurd e (by decide), fun e => absurd e hne⟩,
      ⟨fun e => absurd e (by decide), fun e => by omega⟩,
      ⟨fun e => absurd e (by decide), fun e => by omega⟩⟩
  · rw [h, h']
    refine ⟨Or.inr (Or.inl rfl), ⟨fun e => absurd e (by decide), fun e => absurd e (Nat.lt_irrefl _)⟩,
      ⟨fun _ => rfl, fun _ => rfl⟩, ⟨fun _ => rfl, fun _ => rfl⟩,
      ⟨fun e => absurd e (by decide), fun e => absurd e (Nat.lt_irrefl _)⟩⟩
  · have hne : a ≠ b := fun e => by rw [e] at h'; exact Nat.lt_irrefl _ h'
    rw [h]
    refine ⟨Or.inr (Or.inr rfl), ⟨fun e => absurd e (by decide), fun e => by omega⟩,
      ⟨fun e => absurd e (by decide), fun e => absurd e hne⟩,
      ⟨fun e => absurd e (by decide), fun e => by omega⟩, ⟨fun _ => h', fun _ => rfl⟩⟩

/-- Witness of C7 at `K` against `P`, which differ from limb 3 on. -/
theorem cmp_256_correct_witness :
    K.WF ∧ P.WF ∧ cmp_256 K P = -1 ∧
      ((cmp_256 K P = -1 ∨ cmp_256 K P = 0 ∨ cmp_256 K P = 1) ∧
        (cmp_256 K P = -1 ↔ K.val < P.val) ∧
        (cmp_256 K P = 0 ↔ K = P) ∧
        (cmp_256 K P = 0 ↔ K.val = P.val) ∧
        (cmp_256 K P = 1 ↔ P.val < K.val)) :=
  ⟨by decide, by decide, by decide, cmp_256_correct K P (by decide) (by decide)⟩

/-- C8: for every 128-bit value `x` and every `r` with `1 ≤ r ≤ 127`,
`rotl128(rotl128(x, r), 128 - r) = x`. -/
theorem rotl128_roundtrip (x r : Nat) (hx : x < 2 ^ 128) (h1 : 1 ≤ r) (h2 : r ≤ 127) :
    rotl128 (rotl128 x r) (128 - r) = x :=
  rotl128_inv x r hx h1 h2

/-- Witness of C8 at `x = K1` and `r = 13`. -/
theorem rotl128_roundtrip_witness :
    K1 < 2 ^ 128 ∧ 1 ≤ 13 ∧ 13 ≤ 127 ∧ rotl128 (rotl128 K1 13) (128 - 13) = K1 :=
  ⟨by decide, by decide, by decide, rotl128_roundtrip K1 13 (by decide) (by decide) (by decide)⟩

/-- C9: for every string `s` of `n < 2^64` non-zero bytes, `string_to_uint128(s)`
is `((sum over i of b_i * 257^(n-1-i)) mod 2^128) XOR (n * 2^64) XOR n`. -/
theorem string_to_uint128_correct (s : List Nat) (hs : ∀ b ∈ s, 0 < b ∧ b < 256)
    (hn : s.length < 2 ^ 64) : string_to_uint128 s = fold_string_spec s :=
  string_to_uint128_eq_spec s hs hn

/-- Witness of C9 at the input "abc". -/
theorem string_to_uint128_correct_witness :
    (∀ b ∈ [0x61, 0x62, 0x63], 0 < b ∧ b < 256) ∧ [0x61, 0x62, 0x63].length < 2 ^ 64 ∧
      string_to_uint128 [0x61, 0x62, 0x63] = fold_string_spec [0x61, 0x62, 0x63] :=
  ⟨by decide, by decide, string_to_uint128_correct [0x61, 0x62, 0x63] (by decide) (by decide)⟩

/-- C10: for every `x`, `hash_function_128(x)` is the result of the ten stages of
the specification in their order, all modulo `2^128` with logical shifts:
multiply by `K1`, rotate left 13, multiply by `K2`, `(hi XOR lo) | (lo << 64)`,
rotate left 29, multiply by `K3`, `x XOR (x >> 37)`, `x XOR (x >> 67)`,
multiply by `K2`, `x XOR (x >> 41)`. -/
theorem hash_function_128_correct (x : Nat) : hash_function_128 x = mix_spec x :=
  hash_function_128_eq_mix x

/-! ## Hexadecimal output: helper lemmas -/

theorem land_mask4 (n : Nat) : n &&& 0xF = n % 16 :=
  Nat.and_pow_two_sub_one_eq_mod n 4

theorem hex_digit_facts : ∀ d, d < 16 →
    hex_digit_spec d ∈ lower_hex ∧ hex_value (hex_digit_spec d) = d ∧
      hex_digit_spec d ≠ Char.ofNat 0 ∧
      (if u8 d < 10 then Char.ofNat (u8 ('0'.toNat + u8 d))
        else Char.ofNat (u8 ('a'.toNat + (u8 d - 10)))) = hex_digit_spec d := by
  decide

theorem hex_string_spec_length (w n : Nat) : (hex_string_spec w n).length = w := by
  simp only [hex_string_spec, List.length_map, List.length_range]

theorem hex_string_spec_succ (k n : Nat) :
    hex_string_spec (k + 1) n = hex_string_spec k (n >>> 4) ++ [hex_digit_spec (n &&& 0xF)] := by
  simp only [hex_string_spec, List.range_succ, List.map_append, List.map_cons, List.map_nil]
  congr 1
  · apply List.map_congr_left
    intro i hi
    have hi' : i < k := List.mem_range.1 hi
    have e : 4 * (k + 1 - 1 - i) = 4 + 4 * (k - 1 - i) := by omega
    rw [e, Nat.shiftRight_add]
  · have e : 4 * (k + 1 - 1 - k) = 0 := by omega
    rw [e, Nat.shiftRight_zero]

theorem hex_string_spec_mem (w n : Nat) : ∀ c ∈ hex_string_spec w n,
    c ∈ lower_hex ∧ c ≠ Char.ofNat 0 := by
  intro c hc
  simp only [hex_string_spec, List.mem_map, List.mem_range] at hc
  obtain ⟨i, -, rfl⟩ := hc
  have hlt : (n >>> (4 * (w - 1 - i))) &&& 0xF < 16 := by
    rw [land_mask4]; omega
  exact ⟨(hex_digit_facts _ hlt).1, (hex_digit_facts _ hlt).2.2.1⟩

theorem read_hex_snoc (l : List Char) (c : Char) :
    read_hex (l ++ [c]) = read_hex l * 16 + hex_value c := by
  simp only [read_hex, List.foldl_append, List.foldl_cons, List.foldl_nil]

theorem read_hex_spec (k n : Nat) : read_hex (hex_string_spec k n) = n % 16 ^ k := by
  induction k generalizing n with
  | zero => simp [hex_string_spec, read_hex, Nat.mod_one]
  | succ k ih =>
    have hlt : n &&& 0xF < 16 := by rw [land_mask4]; omega
    have e1 : n >>> 4 = n / 16 := by rw [Nat.shiftRight_eq_div_pow]
    rw [hex_string_spec_succ, read_hex_snoc, ih, (hex_digit_facts _ hlt).2.1, land_mask4, e1,
      Nat.pow_succ, Nat.mul_comm (16 ^ k) 16, Nat.mod_mul]
    omega

theorem drop_set_self (l : List Char) (k : Nat) (c : Char) (hk : k < l.length) :
    (l.set k c).drop k = c :: l.drop (k + 1) := by
  induction l generalizing k with
  | nil => simp at hk
  | cons a l ih =>
    cases k with
    | zero => simp
    | succ k =>
      simp only [List.set_cons_succ, List.drop_succ_cons]
      exact ih k (by simpa using hk)

theorem print_uint128_hex_loop_eq (k : Nat) (buffer : List Char) (n : Nat)
    (hk : k ≤ buffer.length) :
    print_uint128_hex_loop k buffer n = hex_string_spec k n ++ buffer.drop k := by
  induction k generalizing buffer n with
  | zero => simp [print_uint128_hex_loop, hex_string_spec]
  | succ k ih =>
    have hlt : n &&& 0xF < 16 := by rw [land_mask4]; omega
    have hc := (hex_digit_facts _ hlt).2.2.2
    have hset : ∀ c : Char, ((buffer.set k c).length = buffer.length) := fun c => by simp
    rw [print_uint128_hex_loop]
    split
    · rename_i hd
      rw [if_pos hd] at hc
      rw [ih _ _ (by rw [hset]; omega), drop_set_self _ _ _ (by omega), hc,
        hex_string_spec_succ]
      simp
    · rename_i hd
      rw [if_neg hd] at hc
      rw [ih _ _ (by rw [hset]; omega), drop_set_self _ _ _ (by omega), hc,
        hex_string_spec_succ]
      simp

theorem c_string_snoc (l : List Char) (hl : ∀ c ∈ l, c ≠ Char.ofNat 0) :
    c_string (l ++ [Char.ofNat 0]) = l := by
  induction l with
  | nil => rfl
  | cons a l ih =>
    have ha : (a != Char.ofNat 0) = true := by
      simpa using hl a (List.mem_cons_self _ _)
    simp only [c_string] at ih ⊢
    rw [List.cons_append, List.takeWhile_cons, if_pos ha,
      ih (fun c hc => hl c (List.mem_cons_of_mem _ hc))]

theorem print_uint128_hex_eq (n : Nat) : print_uint128_hex n = hex_string_spec 32 n := by
  have h := print_uint128_hex_loop_eq 32
    ((List.replicate 33 (Char.ofNat 0)).set 32 (Char.ofNat 0)) n (by decide)
  have hd : ((List.replicate 33 (Char.ofNat 0)).set 32 (Char.ofNat 0)).drop 32
      = [Char.ofNat 0] := by decide
  rw [hd] at h
  simp only [print_uint128_hex]
  rw [h]
  exact c_string_snoc _ (fun c hc => (hex_string_spec_mem 32 n c hc).2)

theorem toDigitsCore_acc (fuel n : Nat) (ds : List Char) :
    Nat.toDigitsCore 16 fuel n ds = Nat.toDigitsCore 16 fuel n [] ++ ds := by
  induction fuel generalizing n ds with
  | zero => simp [Nat.toDigitsCore]
  | succ fuel ih =>
    simp only [Nat.toDigitsCore]
    split
    · simp
    · rw [ih _ (_ :: ds), ih _ [_]]
      simp

theorem digitChar_eq_spec : ∀ d, d < 16 → Nat.digitChar d = hex_digit_spec d := by
  decide

theorem hex_string_spec_zero (k : Nat) : hex_string_spec k 0 = List.replicate k '0' := by
  induction k with
  | zero => rfl
  | succ k ih =>
    rw [hex_string_spec_succ, Nat.zero_shiftRight, ih, List.replicate_succ']
    rfl

theorem pad_toDigitsCore (k : Nat) : ∀ fuel n, n < fuel → n < 16 ^ (k + 1) →
    List.replicate (k + 1 - (Nat.toDigitsCore 16 fuel n []).length) '0'
        ++ Nat.toDigitsCore 16 fuel n [] = hex_string_spec (k + 1) n := by
  induction k with
  | zero =>
    intro fuel n hf hn
    obtain ⟨f, rfl⟩ : ∃ f, fuel = f + 1 := ⟨fuel - 1, by omega⟩
    have hn16 : n < 16 := by simpa using hn
    have hd : n / 16 = 0 := Nat.div_eq_of_lt hn16
    have hm : n % 16 = n := Nat.mod_eq_of_lt hn16
    simp only [Nat.toDigitsCore, hd, if_true, hm, List.length_singleton]
    rw [hex_string_spec_succ, land_mask4, hm, digitChar_eq_spec n hn16]
    rfl
  | succ k ih =>
    intro fuel n hf hn
    obtain ⟨f, rfl⟩ : ∃ f, fuel = f + 1 := ⟨fuel - 1, by omega⟩
    have hmlt : n % 16 < 16 := Nat.mod_lt _ (by norm_num)
    have e1 : n >>> 4 = n / 16 := by rw [Nat.shiftRight_eq_div_pow]
    rw [hex_string_spec_succ, land_mask4, e1, ← digitChar_eq_spec _ hmlt]
    by_cases hd : n / 16 = 0
    · simp only [Nat.toDigitsCore, hd, if_true, List.length_singleton]
      rw [hex_string_spec_zero]
      simp
    · have hq : n / 16 < 16 ^ (k + 1) := by
        rw [Nat.div_lt_iff_lt_mul (by norm_num)]
        rw [Nat.pow_succ] at hn; exact hn
      have hqf : n / 16 < f := by omega
      simp only [Nat.toDigitsCore, hd, if_false]
      rw [toDigitsCore_acc, ← ih f (n / 16) hqf hq]
      simp only [List.length_append, List.length_singleton, List.append_assoc]
      congr 2
      omega

theorem fmt_016lx_eq (v : Nat) (hv : v < 2 ^ 64) : fmt_016lx v = hex_string_spec 16 v := by
  have h := pad_toDigitsCore 15 (v + 1) v (by omega) (by norm_num; omega)
  simp only [fmt_016lx, u64, Nat.mod_eq_of_lt hv, Nat.toDigits]
  exact h

theorem print_hex_256_eq (x : U256) (hx : x.WF) :
    print_hex_256 x = hex_string_spec 16 x.l3 ++ hex_string_spec 16 x.l2
      ++ hex_string_spec 16 x.l1 ++ hex_string_spec 16 x.l0 ++ [Char.ofNat 10] := by
  obtain ⟨h0, h1, h2, h3⟩ := hx
  simp only [print_hex_256, List.foldl, U256.get, List.nil_append]
  rw [fmt_016lx_eq _ h0, fmt_016lx_eq _ h1, fmt_016lx_eq _ h2, fmt_016lx_eq _ h3]

theorem read_hex_append (a b : List Char) :
    read_hex (a ++ b) = read_hex a * 16 ^ b.length + read_hex b := by
  induction b using List.reverseRecOn with
  | nil => simp [read_hex]
  | append_singleton b c ih =>
    rw [← List.append_assoc, read_hex_snoc, read_hex_snoc, ih, List.length_append,
      List.length_singleton, Nat.pow_succ]
    ring

theorem hex_string_spec_getElem (w n i : Nat) (hi : i < w) :
    (hex_string_spec w n)[i]? = some (hex_digit_spec ((n >>> (4 * (w - 1 - i))) &&& 0xF)) := by
  simp only [hex_string_spec, List.getElem?_map, List.getElem?_range hi, Option.map_some']

theorem print_hex_256_digits (x : U256) (hx : x.WF) :
    (hex_string_spec 16 x.l3 ++ hex_string_spec 16 x.l2 ++ hex_string_spec 16 x.l1
        ++ hex_string_spec 16 x.l0).length = 64 ∧
      (∀ c ∈ hex_string_spec 16 x.l3 ++ hex_string_spec 16 x.l2 ++ hex_string_spec 16 x.l1
        ++ hex_string_spec 16 x.l0, c ∈ lower_hex) ∧
      read_hex (hex_string_spec 16 x.l3 ++ hex_string_spec 16 x.l2 ++ hex_string_spec 16 x.l1
        ++ hex_string_spec 16 x.l0) = x.val := by
  obtain ⟨h0, h1, h2, h3⟩ := hx
  refine ⟨by simp only [List.length_append, hex_string_spec_length], ?_, ?_⟩
  · intro c hc
    simp only [List.mem_append] at hc
    rcases hc with ((hc | hc) | hc) | hc <;> exact (hex_string_spec_mem _ _ c hc).1
  · have e16 : (16 : Nat) ^ 16 = 2 ^ 64 := by norm_num
    simp only [read_hex_append, read_hex_spec, hex_string_spec_length, e16,
      Nat.mod_eq_of_lt h0, Nat.mod_eq_of_lt h1, Nat.mod_eq_of_lt h2, Nat.mod_eq_of_lt h3,
      U256.val]
    ring

/-! ## The reduction loop and the running sum: helper lemmas -/

theorem sub_256_P_facts (x : U256) (hx : x.WF) (h : cmp_256 x P ≥ 0) :
    P.val ≤ x.val ∧ (sub_256 x P).val = x.val - P.val ∧ (sub_256 x P).val < P.val ∧
      ¬ cmp_256 (sub_256 x P) P ≥ 0 := by
  have hP := P_val
  have hxl := val_lt x hx
  have hle := (cmp_256_nonneg_iff x P hx P_wf).1 h
  have hs := sub_256_val x P hx P_wf
  have hv : (sub_256 x P).val = x.val - P.val := by rw [hs]; omega
  have hlt : (sub_256 x P).val < P.val := by rw [hv]; omega
  refine ⟨hle, hv, hlt, ?_⟩
  rw [cmp_256_nonneg_iff _ _ (sub_256_wf x P) P_wf]
  omega

theorem mod_256_eq (x : U256) (hx : x.WF) (fuel : Nat) :
    mod_256 (fuel + 2) x = some (if cmp_256 x P ≥ 0 then sub_256 x P else x) := by
  by_cases h : cmp_256 x P ≥ 0
  · rw [mod_256, if_pos h, mod_256, if_neg (sub_256_P_facts x hx h).2.2.2, if_pos h]
  · rw [mod_256, if_neg h, if_neg h]

theorem mod_256_count_eq (x : U256) (hx : x.WF) (fuel : Nat) :
    mod_256_count (fuel + 2) x
      = some (if cmp_256 x P ≥ 0 then (sub_256 x P, 1) else (x, 0)) := by
  by_cases h : cmp_256 x P ≥ 0
  · rw [mod_256_count, if_pos h, mod_256_count, if_neg (sub_256_P_facts x hx h).2.2.2,
      if_pos h]
    rfl
  · rw [mod_256_count, if_neg h, if_neg h]

theorem mod_256_fuel (x : U256) (hx : x.WF) (fuel : Nat) (hf : 2 ≤ fuel) :
    mod_256 fuel x = mod_256 2 x := by
  obtain ⟨k, rfl⟩ : ∃ k, fuel = k + 2 := ⟨fuel - 2, by omega⟩
  rw [mod_256_eq x hx k, mod_256_eq x hx 0]

theorem add_mod_256 (sum term : U256) (hs : sum.WF) (ht : term.WF) (fuel : Nat)
    (hf : 2 ≤ fuel) :
    ∃ y, mod_256 fuel (add_256 sum term) = some y ∧
      y.val = (sum.val + term.val) % 2 ^ 256 % P.val := by
  obtain ⟨y, hy, -, hv, -⟩ := mod_256_enough (add_256 sum term) (add_256_wf _ _) fuel hf
  exact ⟨y, hy, by rw [hv, add_256_val sum term hs ht]⟩

theorem main_256_step_fuel (fuel : Nat) (hf : 2 ≤ fuel) (s : List Nat) :
    main_256_step fuel s = main_256_step 2 s := by
  funext sum i
  simp only [main_256_step, mod_256_fuel _ (mul_256_64_wf _ _ _) fuel hf,
    mod_256_fuel _ (add_256_wf _ _) fuel hf]

theorem main_256_fuel (fuel : Nat) (hf : 2 ≤ fuel) (s : List Nat) :
    main_256 fuel s = main_256 2 s := by
  obtain ⟨z, hz, hzw⟩ := main_256_loop_some 2 (by decide) s (List.range (strlen s)) U256.zero
    (by decide)
  simp only [main_256, main_256_step_fuel fuel hf, hz, Option.bind_eq_bind, Option.some_bind]
  exact mod_256_fuel z hzw fuel hf

/-! ## Two inputs of two bytes: evaluation -/

theorem step_bA_0 : main_256_step 2 [0x62, 0x41] U256.zero 0
    = some ⟨0xe66e487362a058b2, 0xe66e487362a05962, 0xe66e487362a05962, 0xe66e487362a05962⟩ := by
  decide

theorem step_bA_1 : main_256_step 2 [0x62, 0x41]
      ⟨0xe66e487362a058b2, 0xe66e487362a05962, 0xe66e487362a05962, 0xe66e487362a05962⟩ 1
    = some ⟨0xe5ad13430e576844, 0xe5ad13430e5769b5, 0xe5ad13430e5769b5, 0xe5ad13430e5769b5⟩ := by
  decide

theorem step_x82_0 : main_256_step 2 [0x82, 0x31] U256.zero 0
    = some ⟨0xff3ecacfabb70f92, 0xff3ecacfabb71052, 0xff3ecacfabb71052, 0xff3ecacfabb71052⟩ := by
  decide

theorem step_x82_1 : main_256_step 2 [0x82, 0x31]
      ⟨0xff3ecacfabb70f92, 0xff3ecacfabb71052, 0xff3ecacfabb71052, 0xff3ecacfabb71052⟩ 1
    = some ⟨0xe5ad13430e576844, 0xe5ad13430e5769b5, 0xe5ad13430e5769b5, 0xe5ad13430e5769b5⟩ := by
  decide

theorem mod_digest : mod_256 2
      ⟨0xe5ad13430e576844, 0xe5ad13430e5769b5, 0xe5ad13430e5769b5, 0xe5ad13430e5769b5⟩
    = some ⟨0xe5ad13430e576844, 0xe5ad13430e5769b5, 0xe5ad13430e5769b5, 0xe5ad13430e5769b5⟩ := by
  decide

theorem main_256_two_bytes (fuel : Nat) (s : List Nat) (a b d : U256) (hl : strlen s = 2)
    (h0 : main_256_step fuel s U256.zero 0 = some a) (h1 : main_256_step fuel s a 1 = some b)
    (h2 : mod_256 fuel b = some d) : main_256 fuel s = some d := by
  have hr : List.range 2 = [0, 1] := rfl
  simp only [main_256, hl, hr, List.foldlM_cons, List.foldlM_nil, h0, h1,
    Option.bind_eq_bind, Option.some_bind, Option.pure_def]
  exact h2

theorem main_256_bA : main_256 2 [0x62, 0x41]
    = some ⟨0xe5ad13430e576844, 0xe5ad13430e5769b5, 0xe5ad13430e5769b5, 0xe5ad13430e5769b5⟩ :=
  main_256_two_bytes 2 _ _ _ _ (by decide) step_bA_0 step_bA_1 mod_digest

theorem main_256_x82 : main_256 2 [0x82, 0x31]
    = some ⟨0xe5ad13430e576844, 0xe5ad13430e5769b5, 0xe5ad13430e5769b5, 0xe5ad13430e5769b5⟩ :=
  main_256_two_bytes 2 _ _ _ _ (by decide) step_x82_0 step_x82_1 mod_digest

theorem term_130 : (mod_256 2 (mul_256_64 U256.zero K 130)).map (fun t => xor_256 t R)
    = some ⟨0xff3ecacfabb70f92, 0xff3ecacfabb71052, 0xff3ecacfabb71052, 0xff3ecacfabb71052⟩ := by
  decide

/-! ## The stages of `hash_function_128`: helper lemmas -/

theorem lossless_comp (f g : Nat → Nat) (hf : Lossless128 f) (hg : Lossless128 g) :
    Lossless128 (fun x => g (f x)) :=
  ⟨fun x hx => hg.1 _ (hf.1 x hx),
    fun x y hx hy h => hf.2 x y hx hy (hg.2 _ _ (hf.1 x hx) (hf.1 y hy) h)⟩

theorem shiftRight_xor (x y k : Nat) : (x ^^^ y) >>> k = (x >>> k) ^^^ (y >>> k) := by
  apply Nat.eq_of_testBit_eq
  intro i
  simp only [Nat.testBit_shiftRight, Nat.testBit_xor]

theorem xorshift_inj (k : Nat) (hk : 0 < k) (x y : Nat)
    (h : x ^^^ (x >>> k) = y ^^^ (y >>> k)) : x = y := by
  have e : x ^^^ y = (x ^^^ (x >>> k)) ^^^ (y ^^^ (y >>> k)) ^^^ ((x ^^^ y) >>> k) := by
    rw [shiftRight_xor]
    have e1 : (x ^^^ (x >>> k)) ^^^ (y ^^^ (y >>> k)) ^^^ ((x >>> k) ^^^ (y >>> k))
        = (x ^^^ y) ^^^ (((x >>> k) ^^^ (x >>> k)) ^^^ ((y >>> k) ^^^ (y >>> k))) := by
      ac_rfl
    rw [e1, Nat.xor_self, Nat.xor_self, Nat.xor_self, Nat.xor_zero]
  rw [h, Nat.xor_self, Nat.zero_xor, Nat.shiftRight_eq_div_pow] at e
  have hz : x ^^^ y = 0 := by
    by_contra hne
    have hpos : 0 < x ^^^ y := Nat.pos_of_ne_zero hne
    have hlt : (x ^^^ y) / 2 ^ k < x ^^^ y :=
      Nat.div_lt_self hpos (Nat.one_lt_two_pow (by omega))
    omega
  exact Nat.xor_eq_zero.1 hz

theorem lossless_xorshift (k : Nat) (hk : 0 < k) : Lossless128 (fun x => x ^^^ (x >>> k)) := by
  refine ⟨fun x hx => Nat.xor_lt_two_pow hx ?_, fun x y _ _ h => xorshift_inj k hk x y h⟩
  rw [Nat.shiftRight_eq_div_pow]
  exact Nat.lt_of_le_of_lt (Nat.div_le_self _ _) hx

theorem lossless_mul (c : Nat) (hc : Nat.gcd (2 ^ 128) c = 1) :
    Lossless128 (fun x => u128 (x * c)) := by
  refine ⟨fun x _ => u128_lt _, fun x y hx hy h => ?_⟩
  have h1 : Nat.ModEq (2 ^ 128) x y := Nat.ModEq.cancel_right_of_coprime hc h
  have h2 : x % 2 ^ 128 = y % 2 ^ 128 := h1
  rwa [Nat.mod_eq_of_lt hx, Nat.mod_eq_of_lt hy] at h2

theorem lossless_rotl (r : Nat) (h1 : 1 ≤ r) (h2 : r ≤ 127) :
    Lossless128 (fun x => rotl128 x r) := by
  refine ⟨fun x hx => ?_, fun x y hx hy h => ?_⟩
  · show rotl128 x r < 2 ^ 128
    rw [rotl128_eq x r hx h1 h2]; exact rotate_left_spec_lt x r hx h2
  · have h' : rotl128 x r = rotl128 y r := h
    have e : rotl128 (rotl128 x r) (128 - r) = rotl128 (rotl128 y r) (128 - r) := by rw [h']
    rwa [rotl128_inv x r hx h1 h2, rotl128_inv y r hy h1 h2] at e

theorem hash_round2_eq (x : Nat) (hx : x < 2 ^ 128) :
    hash_round2 x = 2 ^ 64 * (x % 2 ^ 64) + (x / 2 ^ 64 ^^^ x % 2 ^ 64) ∧
      (x / 2 ^ 64 ^^^ x % 2 ^ 64) < 2 ^ 64 := by
  have hlo : x % 2 ^ 64 < 2 ^ 64 := Nat.mod_lt _ (by norm_num)
  have hhi : x / 2 ^ 64 < 2 ^ 64 := by omega
  have hb : (x / 2 ^ 64 ^^^ x % 2 ^ 64) < 2 ^ 64 := Nat.xor_lt_two_pow hhi hlo
  refine ⟨?_, hb⟩
  simp only [hash_round2, land_mask64, Nat.shiftRight_eq_div_pow, Nat.shiftLeft_eq, u128]
  rw [Nat.mod_eq_of_lt (a := x % 2 ^ 64 * 2 ^ 64) (by omega), Nat.or_comm,
    Nat.mul_comm (x % 2 ^ 64) (2 ^ 64)]
  exact (Nat.mul_add_lt_is_or hb _).symm

theorem lossless_round2 : Lossless128 hash_round2 := by
  refine ⟨fun x hx => ?_, fun x y hx hy h => ?_⟩
  · obtain ⟨e, hb⟩ := hash_round2_eq x hx
    rw [e]; omega
  · obtain ⟨ex, hbx⟩ := hash_round2_eq x hx
    obtain ⟨ey, hby⟩ := hash_round2_eq y hy
    rw [ex, ey] at h
    have hlo : x % 2 ^ 64 = y % 2 ^ 64 := by omega
    have hxor : x / 2 ^ 64 ^^^ x % 2 ^ 64 = y / 2 ^ 64 ^^^ y % 2 ^ 64 := by omega
    rw [hlo] at hxor
    have hhi : x / 2 ^ 64 = y / 2 ^ 64 := Nat.xor_left_injective hxor
    omega

theorem gcd_K2 : Nat.gcd (2 ^ 128) K2 = 1 := by decide

theorem gcd_K3 : Nat.gcd (2 ^ 128) K3 = 1 := by decide

theorem lossless_after_K1 : Lossless128 hash_after_K1 := by
  have h := lossless_comp _ _ (lossless_comp _ _ (lossless_comp _ _ (lossless_comp _ _
    (lossless_comp _ _ (lossless_comp _ _ (lossless_comp _ _ (lossless_comp _ _
      (lossless_rotl 13 (by decide) (by decide)) (lossless_mul K2 gcd_K2)) lossless_round2)
      (lossless_rotl 29 (by decide) (by decide))) (lossless_mul K3 gcd_K3))
      (lossless_xorshift 37 (by decide))) (lossless_xorshift 67 (by decide)))
      (lossless_mul K2 gcd_K2)) (lossless_xorshift 41 (by decide))
  exact h

theorem hash_function_128_split (x : Nat) :
    hash_function_128 x = hash_after_K1 (u128 (x * K1)) := rfl

theorem K1_four : K1 = 4 * (K1 / 4) ∧ Nat.gcd (2 ^ 128) (K1 / 4) = 1 ∧
    2 ^ 126 * K1 = 2 ^ 128 * (K1 / 4) ∧ K1 % 256 = 0x84 := by decide

theorem mul_K1_shift (x : Nat) : u128 (u128 (x + 2 ^ 126) * K1) = u128 (x * K1) := by
  simp only [u128]
  rw [Nat.mod_mul_mod, Nat.add_mul, K1_four.2.2.1, Nat.add_mul_mod_self_left]

theorem mul_K1_inj (x y : Nat) (h : u128 (x * K1) = u128 (y * K1)) :
    x % 2 ^ 126 = y % 2 ^ 126 := by
  have h4 := K1_four.1
  have h1 : Nat.ModEq (2 ^ 128) (x * 4 * (K1 / 4)) (y * 4 * (K1 / 4)) := by
    rw [Nat.mul_assoc, Nat.mul_assoc, ← h4]; exact h
  have h2 : (x * 4) % 2 ^ 128 = (y * 4) % 2 ^ 128 :=
    Nat.ModEq.cancel_right_of_coprime K1_four.2.1 h1
  omega

theorem hash_round2_inverse_left (x : Nat) (hx : x < 2 ^ 128) :
    hash_round2_inverse (hash_round2 x) = x := by
  obtain ⟨e, hb⟩ := hash_round2_eq x hx
  have hd : (2 ^ 64 * (x % 2 ^ 64) + (x / 2 ^ 64 ^^^ x % 2 ^ 64)) / 2 ^ 64 = x % 2 ^ 64 := by
    rw [Nat.mul_add_div (by norm_num), Nat.div_eq_of_lt hb, Nat.add_zero]
  have hm : (2 ^ 64 * (x % 2 ^ 64) + (x / 2 ^ 64 ^^^ x % 2 ^ 64)) % 2 ^ 64
      = (x / 2 ^ 64 ^^^ x % 2 ^ 64) := by
    rw [Nat.mul_add_mod, Nat.mod_eq_of_lt hb]
  simp only [hash_round2_inverse]
  rw [e, hd, hm, Nat.xor_cancel_right]
  omega

theorem hash_round2_inverse_lt (z : Nat) (hz : z < 2 ^ 128) :
    hash_round2_inverse z < 2 ^ 128 ∧
      hash_round2_inverse z % 2 ^ 64 = z / 2 ^ 64 ∧
      hash_round2_inverse z / 2 ^ 64 = (z % 2 ^ 64 ^^^ z / 2 ^ 64) := by
  have hlo : z % 2 ^ 64 < 2 ^ 64 := Nat.mod_lt _ (by norm_num)
  have hhi : z / 2 ^ 64 < 2 ^ 64 := by omega
  have hb : (z % 2 ^ 64 ^^^ z / 2 ^ 64) < 2 ^ 64 := Nat.xor_lt_two_pow hlo hhi
  simp only [hash_round2_inverse]
  generalize (z % 2 ^ 64 ^^^ z / 2 ^ 64) = h at hb ⊢
  omega

theorem hash_round2_inverse_right (z : Nat) (hz : z < 2 ^ 128) :
    hash_round2 (hash_round2_inverse z) = z := by
  obtain ⟨hlt, hm, hd⟩ := hash_round2_inverse_lt z hz
  obtain ⟨e, -⟩ := hash_round2_eq _ hlt
  rw [e, hm, hd, Nat.xor_cancel_right]
  omega

/-! ## The claims, continued -/

/-- C11: for the empty input string the 256-bit pipeline's sum is 0, all four
limbs zero, and the text written is 64 characters `0` followed by a newline;
one test of the loop condition of `mod_256` is enough for it. -/
theorem main_256_empty (fuel : Nat) :
    main_256 (fuel + 1) [] = some ⟨0, 0, 0, 0⟩ ∧
      main_256_output (fuel + 1) [] = some (List.replicate 64 '0' ++ [Char.ofNat 10]) :=
  ⟨rfl, rfl⟩

/-- C12: for every 128-bit value `n` the string built by `print_uint128_hex` has
exactly 32 characters, each one of `0-9a-f`; character `i` is the lowercase hex
digit of `(n >> (4*(31-i))) & 0xF`, so leading zeros are kept and the string
read as a base-16 numeral is `n`. -/
theorem print_uint128_hex_correct (n : Nat) (hn : n < 2 ^ 128) :
    (print_uint128_hex n).length = 32 ∧
      (∀ c ∈ print_uint128_hex n, c ∈ lower_hex) ∧
      (∀ i, i < 32 → (print_uint128_hex n)[i]?
        = some (hex_digit_spec ((n >>> (4 * (31 - i))) &&& 0xF))) ∧
      read_hex (print_uint128_hex n) = n := by
  rw [print_uint128_hex_eq]
  refine ⟨hex_string_spec_length 32 n, fun c hc => (hex_string_spec_mem 32 n c hc).1,
    fun i hi => hex_string_spec_getElem 32 n i hi, ?_⟩
  rw [read_hex_spec]
  exact Nat.mod_eq_of_lt (by norm_num; exact hn)

/-- Witness of C12 at `n = K1`. -/
theorem print_uint128_hex_correct_witness :
    K1 < 2 ^ 128 ∧
      ((print_uint128_hex K1).length = 32 ∧
        (∀ c ∈ print_uint128_hex K1, c ∈ lower_hex) ∧
        (∀ i, i < 32 → (print_uint128_hex K1)[i]?
          = some (hex_digit_spec ((K1 >>> (4 * (31 - i))) &&& 0xF))) ∧
        read_hex (print_uint128_hex K1) = K1) :=
  ⟨by decide, print_uint128_hex_correct K1 (by decide)⟩

/-- C13: for every 4-limb value `x` the text written by `print_hex_256` is the
16 zero-padded lowercase hex digits of limb 3, then of limb 2, limb 1 and
limb 0, followed by one newline: 64 characters of `0-9a-f` that read as a
base-16 numeral give the 256-bit value of `x`, then the newline. -/
theorem print_hex_256_correct (x : U256) (hx : x.WF) :
    print_hex_256 x = hex_string_spec 16 x.l3 ++ hex_string_spec 16 x.l2
        ++ hex_string_spec 16 x.l1 ++ hex_string_spec 16 x.l0 ++ [Char.ofNat 10] ∧
      (print_hex_256 x).length = 65 ∧
      (∀ c ∈ (print_hex_256 x).take 64, c ∈ lower_hex) ∧
      (print_hex_256 x).drop 64 = [Char.ofNat 10] ∧
      read_hex ((print_hex_256 x).take 64) = x.val := by
  obtain ⟨hlen, hmem, hval⟩ := print_hex_256_digits x hx
  rw [print_hex_256_eq x hx, List.take_left' hlen, List.drop_left' hlen]
  refine ⟨rfl, ?_, hmem, rfl, hval⟩
  rw [List.length_append, hlen]
  rfl

/-- Witness of C13 at `x = P`. -/
theorem print_hex_256_correct_witness :
    P.WF ∧
      (print_hex_256 P = hex_string_spec 16 P.l3 ++ hex_string_spec 16 P.l2
          ++ hex_string_spec 16 P.l1 ++ hex_string_spec 16 P.l0 ++ [Char.ofNat 10] ∧
        (print_hex_256 P).length = 65 ∧
        (∀ c ∈ (print_hex_256 P).take 64, c ∈ lower_hex) ∧
        (print_hex_256 P).drop 64 = [Char.ofNat 10] ∧
        read_hex ((print_hex_256 P).take 64) = P.val) :=
  ⟨by decide, print_hex_256_correct P (by decide)⟩
/-- C14, refuted as stated: stage 4 of the 128-bit mix, `x -> (hi XOR lo) | (lo << 64)`,
sends no two distinct 128-bit values to the same result. -/
theorem hash_round2_no_collision :
    ¬ ∃ x y, x < 2 ^ 128 ∧ y < 2 ^ 128 ∧ x ≠ y ∧ hash_round2 x = hash_round2 y := by
  rintro ⟨x, y, hx, hy, hne, h⟩
  exact hne (lossless_round2.2 x y hx hy h)

/-- C14, amended: stage 4 of the 128-bit mix is a lossless permutation of the
128-bit values. It maps them to 128-bit values, `hash_round2_inverse` undoes
it on both sides, and two values with the same result are equal. -/
theorem hash_round2_permutation (x y : Nat) (hx : x < 2 ^ 128) (hy : y < 2 ^ 128) :
    hash_round2 x < 2 ^ 128 ∧
      hash_round2_inverse (hash_round2 x) = x ∧
      hash_round2 (hash_round2_inverse x) = x ∧
      (hash_round2 x = hash_round2 y → x = y) :=
  ⟨lossless_round2.1 x hx, hash_round2_inverse_left x hx, hash_round2_inverse_right x hx,
    lossless_round2.2 x y hx hy⟩

/-- Witness of the amended C14 at `x = K1`, `y = K2`. -/
theorem hash_round2_permutation_witness :
    K1 < 2 ^ 128 ∧ K2 < 2 ^ 128 ∧
      (hash_round2 K1 < 2 ^ 128 ∧
        hash_round2_inverse (hash_round2 K1) = K1 ∧
        hash_round2 (hash_round2_inverse K1) = K1 ∧
        (hash_round2 K1 = hash_round2 K2 → K1 = K2)) :=
  ⟨by decide, by decide, hash_round2_permutation K1 K2 (by decide) (by decide)⟩

/-- C15, refuted as stated: with `sum` the running sum after the first byte of
the input `0x62 0x41` and `term` the term of its second byte, `sum < P`, but
`add_256` then `mod_256` leave a value that is not `(sum + term) mod P`: the sum
passes `2^256` and `add_256` drops the carry. -/
theorem add_mod_256_not_mod_P :
    (U256.mk 0xe66e487362a058b2 0xe66e487362a05962 0xe66e487362a05962 0xe66e487362a05962).WF ∧
    (U256.mk 0xff3ecacfabb70f92 0xff3ecacfabb71052 0xff3ecacfabb71052 0xff3ecacfabb71052).WF ∧
    (U256.mk 0xe66e487362a058b2 0xe66e487362a05962 0xe66e487362a05962 0xe66e487362a05962).val
      < P.val ∧
    ∃ y, mod_256 2 (add_256
        (U256.mk 0xe66e487362a058b2 0xe66e487362a05962 0xe66e487362a05962 0xe66e487362a05962)
        (U256.mk 0xff3ecacfabb70f92 0xff3ecacfabb71052 0xff3ecacfabb71052 0xff3ecacfabb71052))
        = some y ∧
      y.val ≠
        ((U256.mk 0xe66e487362a058b2 0xe66e487362a05962 0xe66e487362a05962
            0xe66e487362a05962).val +
          (U256.mk 0xff3ecacfabb70f92 0xff3ecacfabb71052 0xff3ecacfabb71052
            0xff3ecacfabb71052).val) % P.val :=
  ⟨by decide, by decide, by decide,
    ⟨⟨0xe5ad13430e576844, 0xe5ad13430e5769b5, 0xe5ad13430e5769b5, 0xe5ad13430e5769b5⟩,
      by decide, by decide⟩⟩

/-- C15, amended: for every 4-limb `sum` with value below `P` and every 4-limb
`term`, `add_256(sum, term)` followed by `mod_256(sum)` leaves in `sum` the value
`((sum + term) mod 2^256) mod P`. That is `(sum + term) mod P` when
`sum + term < 2^256`, and `sum + term - 2^256` when the addition passes `2^256`. -/
theorem add_mod_256_correct (sum term : U256) (hs : sum.WF) (ht : term.WF)
    (hlt : sum.val < P.val) (fuel : Nat) (hf : 2 ≤ fuel) :
    ∃ y, mod_256 fuel (add_256 sum term) = some y ∧
      y.val = (sum.val + term.val) % 2 ^ 256 % P.val ∧
      (sum.val + term.val < 2 ^ 256 → y.val = (sum.val + term.val) % P.val) ∧
      (2 ^ 256 ≤ sum.val + term.val → y.val = sum.val + term.val - 2 ^ 256) := by
  obtain ⟨y, hy, hv⟩ := add_mod_256 sum term hs ht fuel hf
  have htl := val_lt term ht
  refine ⟨y, hy, hv, ?_, ?_⟩
  · intro h; rw [hv, Nat.mod_eq_of_lt h]
  · intro h
    rw [P_val] at hv hlt
    generalize sum.val = a at hv hlt h ⊢
    generalize term.val = b at hv htl h ⊢
    generalize y.val = v at hv ⊢
    omega

/-- Witness of the amended C15 at the running sum and the term of the input
`0x62 0x41`, where the addition passes `2^256`. -/
theorem add_mod_256_correct_witness :
    (U256.mk 0xe66e487362a058b2 0xe66e487362a05962 0xe66e487362a05962 0xe66e487362a05962).WF ∧
    (U256.mk 0xff3ecacfabb70f92 0xff3ecacfabb71052 0xff3ecacfabb71052 0xff3ecacfabb71052).WF ∧
    (U256.mk 0xe66e487362a058b2 0xe66e487362a05962 0xe66e487362a05962 0xe66e487362a05962).val
      < P.val ∧ 2 ≤ 2 ∧
    ∃ y, mod_256 2 (add_256
        (U256.mk 0xe66e487362a058b2 0xe66e487362a05962 0xe66e487362a05962 0xe66e487362a05962)
        (U256.mk 0xff3ecacfabb70f92 0xff3ecacfabb71052 0xff3ecacfabb71052 0xff3ecacfabb71052))
        = some y ∧
      y.val = ((U256.mk 0xe66e487362a058b2 0xe66e487362a05962 0xe66e487362a05962
            0xe66e487362a05962).val +
          (U256.mk 0xff3ecacfabb70f92 0xff3ecacfabb71052 0xff3ecacfabb71052
            0xff3ecacfabb71052).val) % 2 ^ 256 % P.val :=
  ⟨by decide, by decide, by decide, by decide,
    (add_mod_256_correct _ _ (by decide) (by decide) (by decide) 2 (by decide)).imp
      (fun _ h => ⟨h.1, h.2.1⟩)⟩

/-- C16: there are byte strings `s1 ≠ s2`, with `s1` a proper prefix of `s2`, that
`string_to_uint128` sends to different values: "a" and "ab". -/
theorem string_to_uint128_extension :
    ∃ s1 s2 : List Nat, s1 ≠ s2 ∧ s1 <+: s2 ∧
      (∀ b ∈ s2, 0 < b ∧ b < 256) ∧ string_to_uint128 s1 ≠ string_to_uint128 s2 :=
  ⟨[0x61], [0x61, 0x62], by decide, ⟨[0x62], rfl⟩, by decide, by decide⟩

/-- C17: for every 4-limb value `x` the loop of `mod_256` terminates within two
tests of its condition, after at most one `sub_256(x, P)`, because
`2^256 < 2 * P`. A subtraction is taken only when `x ≥ P`, so it does not wrap:
it leaves `x - P`; the value left is below `P`. -/
theorem mod_256_terminates (x : U256) (hx : x.WF) (fuel : Nat) (hf : 2 ≤ fuel) :
    2 ^ 256 < 2 * P.val ∧
      ∃ y n, mod_256_count fuel x = some (y, n) ∧ mod_256 fuel x = some y ∧ n ≤ 1 ∧
        (n = 0 → x.val < P.val ∧ y = x) ∧
        (n = 1 → P.val ≤ x.val ∧ y = sub_256 x P ∧ y.val = x.val - P.val) ∧
        y.val < P.val := by
  obtain ⟨k, rfl⟩ : ∃ k, fuel = k + 2 := ⟨fuel - 2, by omega⟩
  refine ⟨by decide, ?_⟩
  by_cases h : cmp_256 x P ≥ 0
  · obtain ⟨hle, hv, hlt, -⟩ := sub_256_P_facts x hx h
    refine ⟨sub_256 x P, 1, ?_, ?_, Nat.le_refl 1, fun h0 => absurd h0 (by decide),
      fun _ => ⟨hle, rfl, hv⟩, hlt⟩
    · rw [mod_256_count_eq x hx k, if_pos h]
    · rw [mod_256_eq x hx k, if_pos h]
  · have hlt : x.val < P.val := by
      rw [cmp_256_nonneg_iff x P hx P_wf] at h; omega
    refine ⟨x, 0, ?_, ?_, Nat.zero_le 1, fun _ => ⟨hlt, rfl⟩,
      fun h1 => absurd h1 (by decide), hlt⟩
    · rw [mod_256_count_eq x hx k, if_neg h]
    · rw [mod_256_eq x hx k, if_neg h]

/-- Witness of C17 at the largest 4-limb value, `2^256 - 1`. -/
theorem mod_256_terminates_witness :
    (U256.mk (2 ^ 64 - 1) (2 ^ 64 - 1) (2 ^ 64 - 1) (2 ^ 64 - 1)).WF ∧ 2 ≤ 2 ∧
      2 ^ 256 < 2 * P.val ∧
      ∃ y n, mod_256_count 2 (U256.mk (2 ^ 64 - 1) (2 ^ 64 - 1) (2 ^ 64 - 1) (2 ^ 64 - 1))
          = some (y, n) ∧ n ≤ 1 :=
  ⟨by decide, by decide,
    (mod_256_terminates (U256.mk (2 ^ 64 - 1) (2 ^ 64 - 1) (2 ^ 64 - 1) (2 ^ 64 - 1))
      (by decide) 2 (by decide)).1,
    (mod_256_terminates (U256.mk (2 ^ 64 - 1) (2 ^ 64 - 1) (2 ^ 64 - 1) (2 ^ 64 - 1))
      (by decide) 2 (by decide)).2.imp (fun _ h => h.imp (fun _ h2 => ⟨h2.1, h2.2.2.1⟩))⟩

/-- C18: for every `x`, 128-bit or not, `hash_function_128((x + 2^126) mod 2^128)` is
`hash_function_128(x)` although the two arguments differ: `K1` is divisible by 4,
its low byte being `0x84`, so the first multiplication drops the two top bits of
the input, and `hash_function_128` is not injective. -/
theorem hash_function_128_top_bits (x : Nat) :
    hash_function_128 (u128 (x + 2 ^ 126)) = hash_function_128 x ∧
      u128 (x + 2 ^ 126) ≠ x ∧ u128 (x + 2 ^ 126) < 2 ^ 128 ∧
      K1 % 4 = 0 ∧ K1 % 256 = 0x84 := by
  refine ⟨?_, ?_, u128_lt _, by decide, by decide⟩
  · rw [hash_function_128_split, hash_function_128_split, mul_K1_shift]
  · simp only [u128]; omega

/-- C19: for all `x` and `y`, 128-bit in particular, if `hash_function_128(x) = hash_function_128(y)`
then `x` and `y` agree modulo `2^126`: the stages after the multiplication by
`K1` are lossless on the 128-bit values, and `K1` is 4 times an odd number. -/
theorem hash_function_128_collisions (x y : Nat)
    (h : hash_function_128 x = hash_function_128 y) :
    x % 2 ^ 126 = y % 2 ^ 126 ∧ Lossless128 hash_after_K1 ∧
      K1 = 4 * (K1 / 4) ∧ (K1 / 4) % 2 = 1 := by
  refine ⟨?_, lossless_after_K1, K1_four.1, by decide⟩
  rw [hash_function_128_split, hash_function_128_split] at h
  exact mul_K1_inj x y (lossless_after_K1.2 _ _ (u128_lt _) (u128_lt _) h)

/-- Witness of C19 at `x = 1` and `y = 1 + 2^126`, which have the same hash. -/
theorem hash_function_128_collisions_witness :
    1 < 2 ^ 128 ∧ 1 + 2 ^ 126 < 2 ^ 128 ∧
      hash_function_128 1 = hash_function_128 (1 + 2 ^ 126) ∧
      1 % 2 ^ 126 = (1 + 2 ^ 126) % 2 ^ 126 :=
  ⟨by decide, by decide, by decide,
    (hash_function_128_collisions 1 (1 + 2 ^ 126) (by decide)).1⟩

/-- C20: the 256-bit pipeline has a collision between two inputs of two bytes:
the strings `0x62 0x41` and `0x82 0x31` differ, their scalars `byte * (i + 1)` are
`(98, 130)` and `(130, 98)`, and both have the same 256-bit digest. -/
theorem main_256_collision (fuel : Nat) (hf : 2 ≤ fuel) :
    ([0x62, 0x41] : List Nat) ≠ [0x82, 0x31] ∧
      u64 (u64 (([0x62, 0x41] : List Nat).getD 0 0 % 256) * u64 (0 + 1)) = 98 ∧
      u64 (u64 (([0x62, 0x41] : List Nat).getD 1 0 % 256) * u64 (1 + 1)) = 130 ∧
      u64 (u64 (([0x82, 0x31] : List Nat).getD 0 0 % 256) * u64 (0 + 1)) = 130 ∧
      u64 (u64 (([0x82, 0x31] : List Nat).getD 1 0 % 256) * u64 (1 + 1)) = 98 ∧
      main_256 fuel [0x62, 0x41]
        = some ⟨0xe5ad13430e576844, 0xe5ad13430e5769b5, 0xe5ad13430e5769b5,
            0xe5ad13430e5769b5⟩ ∧
      main_256 fuel [0x82, 0x31] = main_256 fuel [0x62, 0x41] := by
  refine ⟨by decide, by decide, by decide, by decide, by decide, ?_, ?_⟩
  · rw [main_256_fuel fuel hf]; exact main_256_bA
  · rw [main_256_fuel fuel hf, main_256_fuel fuel hf [0x62, 0x41], main_256_bA, main_256_x82]

/-- Witness of C20 with two tests of the loop condition for each `mod_256`. -/
theorem main_256_collision_witness :
    2 ≤ 2 ∧ main_256 2 [0x82, 0x31] = main_256 2 [0x62, 0x41] :=
  ⟨by decide, (main_256_collision 2 (by decide)).2.2.2.2.2.2⟩

end Seytan
